import Mathlib

/-!
Verification of the eiger-test binary-diff utility.

The Go sources are shallowly embedded here:
* `RollingHash` and its operations mirror `rollinghash/rollinghash.go`
  (also duplicated in `main.go`).
* Delta generation/application mirror the `filediff` package:
  `hashFileBlocks`, `GenerateDelta` (serial), `processSection` plus the
  sectioned-parallel `GenerateDelta`, and `ApplyDelta`.

Files are byte lists (`List Nat`, each entry the value of one byte); Go `int`
arithmetic is carried out in `Nat` (every value the code computes here is
non-negative and far below 2^63, and each Go subtraction is performed only
when the minuend dominates, so `Nat` subtraction agrees with Go `int`
subtraction at every use site).
-/

namespace EigerDiff

/-- `Base = 256` from `rollinghash.go` and `main.go`. -/
def Base : Nat := 256

/-- `ModPrime = 805306457` from `rollinghash.go` (`modPrime` in `main.go`). -/
def ModPrime : Nat := 805306457

/-- The `RollingHash` struct: current hash, window size, value of the first
byte in the window, and `base^(window-1) mod modPrime`. -/
structure RollingHash where
  hash : Nat
  window : Nat
  first : Nat
  baseN : Nat
deriving Repr, DecidableEq

/-- The initialization loop of `New`: `for i := 0; i < window-1; i++ {
baseN = (baseN * Base) % ModPrime }`, with the iteration count as fuel. -/
def baseNLoop : Nat → Nat → Nat
  | 0, acc => acc
  | k + 1, acc => baseNLoop k (acc * Base % ModPrime)

/-- `New(window)`: zero-valued struct except `window` and the precomputed
`baseN`. -/
def RollingHash.new (window : Nat) : RollingHash :=
  { hash := 0, window := window, first := 0, baseN := baseNLoop (window - 1) 1 }

/-- `AddByte(b)`: `hash = (hash*Base + int(b)) % ModPrime`. -/
def RollingHash.AddByte (rh : RollingHash) (b : Nat) : RollingHash :=
  { rh with hash := (rh.hash * Base + b) % ModPrime }

/-- `RemoveByte(b)`: `hash = (hash + ModPrime - first*baseN%ModPrime) %
ModPrime; first = int(b)`.  Go parses `first*baseN%ModPrime` as
`(first*baseN) % ModPrime`, which is `< ModPrime`, so the Go `int`
subtraction never underflows and the `Nat` subtraction below agrees. -/
def RollingHash.RemoveByte (rh : RollingHash) (b : Nat) : RollingHash :=
  { rh with
      hash := (rh.hash + ModPrime - rh.first * rh.baseN % ModPrime) % ModPrime,
      first := b }

/-- `Roll(oldByte, newByte)`: `RemoveByte(oldByte)` then `AddByte(newByte)`. -/
def RollingHash.Roll (rh : RollingHash) (oldByte newByte : Nat) : RollingHash :=
  (rh.RemoveByte oldByte).AddByte newByte

/-- `GetHash()`. -/
def RollingHash.GetHash (rh : RollingHash) : Nat := rh.hash

/-- Folding `AddByte` over a byte list (the loop bodies of `HashData` and of
the per-window rehash in `GenerateDelta`/`processSection`). -/
def addBytes (rh : RollingHash) (data : List Nat) : RollingHash :=
  data.foldl (fun r b => r.AddByte b) rh

/-- `HashData(data)`: reset `hash` to 0, record the first byte in `first`,
and `AddByte` every byte in order. -/
def RollingHash.HashData (rh : RollingHash) (data : List Nat) : RollingHash :=
  match data with
  | [] => { rh with hash := 0 }
  | b :: rest => addBytes (RollingHash.AddByte { rh with hash := 0, first := b } b) rest

/-- The pure polynomial hash value that `HashData` (and the generators'
per-window rehash) compute: fold `(h*Base + b) % ModPrime` from 0. -/
def polyHash (data : List Nat) : Nat :=
  data.foldl (fun h b => (h * Base + b) % ModPrime) 0

/-- `blockSize = 1024` (both `filediff` and `main.go`).  The algorithm
embeddings below take the block size as an explicit parameter `bs`; the
program always instantiates it with this constant. -/
def blockSize : Nat := 1024

/-- `sectionSize = 10485760` (10MB sections) from the parallel `filediff`
variant.  As with `blockSize`, the embeddings take it as a parameter. -/
def sectionSize : Nat := 10485760

/-- The `DeltaCommand` struct: `Command` is `"copy"` or `"insert"`,
`Position` the absolute output position, `BlockIndex` the original-file block
for copies, `Data` the literal bytes for inserts.  Fields a branch does not
set keep Go's zero values (`0`, `[]`). -/
structure DeltaCommand where
  Command : String
  Position : Nat
  BlockIndex : Nat
  Data : List Nat
deriving Repr, DecidableEq

/-- Chunking worker, structurally recursive on a fuel argument so that it
reduces definitionally; `chunkList` always supplies enough fuel. -/
def chunkGo (bs : Nat) : Nat → List Nat → List (List Nat)
  | _, [] => []
  | 0, _ :: _ => []
  | fuel + 1, x :: rest =>
      if bs = 0 then []
      else (x :: rest).take bs :: chunkGo bs fuel ((x :: rest).drop bs)

/-- Fixed-size chunking of a byte list: the blocks `hashFileBlocks` reads
(`blockSize` bytes each, the final chunk possibly shorter; a zero block size
reads nothing, matching the `bytesRead == 0` break). -/
def chunkList (bs : Nat) (l : List Nat) : List (List Nat) :=
  chunkGo bs l.length l

/-- The hash `hashFileBlocks` computes for one block:
`rh := New(bytesRead); rh.HashData(block); rh.GetHash()`. -/
def blockHash (block : List Nat) : Nat :=
  ((RollingHash.new block.length).HashData block).GetHash

/-- The block index of `hashFileBlocks`, as the list of block hashes in block
order.  The Go map from hash to the list of block indices sharing it is
recovered by `lookupFirst`: `originalHashes[h]` exists iff some entry equals
`h`, and `originalHashes[h][0]` is the first (least) such block index. -/
def blockHashes (bs : Nat) (original : List Nat) : List Nat :=
  (chunkList bs original).map blockHash

/-- `originalHashes[h][0]`: the first recorded block index whose hash is `h`,
or `none` when the hash is absent from the index. -/
def lookupFirst : List Nat → Nat → Option Nat
  | [], _ => none
  | h :: t, x => if h = x then some 0 else (lookupFirst t x).map (· + 1)

/-- The per-window rehash of the generators: `rh := New(bs)` followed by
`AddByte` over the window contents (`HashData` is not used here). -/
def windowHash (bs : Nat) (w : List Nat) : Nat :=
  (addBytes (RollingHash.new bs) w).GetHash

/-- The serial generator's loop state: accumulated commands, the sliding
window buffer, and the output cursor `position`. -/
structure GenState where
  delta : List DeltaCommand
  window : List Nat
  position : Nat
deriving Repr, DecidableEq

/-- Steps 1 of the serial loop body: `currentWindow.WriteByte(b)`, then if the
length exceeds `bs`, discard the oldest byte. -/
def slideWindow (bs : Nat) (w : List Nat) (b : Nat) : List Nat :=
  let w1 := w ++ [b]
  if bs < w1.length then w1.tail else w1

/-- One iteration of the serial `GenerateDelta` loop
(`filediff`, the draft at lines 423–469 of the concatenated source): append
the byte, trim the window, and when the window holds exactly `bs` bytes look
its hash up in the index; on a hit emit
`Copy{BlockIndex: indexes[0], Position: position+1-bs}` and clear the window.
`position` advances by one on every path. -/
def genStep (bs : Nat) (hashes : List Nat) (s : GenState) (b : Nat) : GenState :=
  if (slideWindow bs s.window b).length = bs then
    match lookupFirst hashes (windowHash bs (slideWindow bs s.window b)) with
    | some idx =>
        ⟨s.delta ++ [⟨"copy", s.position + 1 - bs, idx, []⟩], [], s.position + 1⟩
    | none => ⟨s.delta, slideWindow bs s.window b, s.position + 1⟩
  else ⟨s.delta, slideWindow bs s.window b, s.position + 1⟩

/-- The serial loop over the whole updated file, from the empty initial
state. -/
def genRun (bs : Nat) (original updated : List Nat) : GenState :=
  updated.foldl (genStep bs (blockHashes bs original)) ⟨[], [], 0⟩

/-- The EOF handler of serial `GenerateDelta`: any bytes still held in the
window become one `Insert{Position: position - len(window), Data: window}`. -/
def genFinish (s : GenState) : List DeltaCommand :=
  if s.window.length > 0 then
    s.delta ++ [⟨"insert", s.position - s.window.length, 0, s.window⟩]
  else s.delta

/-- Serial `GenerateDelta` over in-memory files. -/
def GenerateDelta (bs : Nat) (original updated : List Nat) : List DeltaCommand :=
  genFinish (genRun bs original updated)

/-- A seek-then-write into the output file: seeking past the current end
leaves a hole that reads back as zero bytes; writing extends or overwrites. -/
def writeAt (out : List Nat) (pos : Nat) (data : List Nat) : List Nat :=
  let padded := out ++ List.replicate (pos - out.length) 0
  padded.take pos ++ data ++ padded.drop (pos + data.length)

/-- One `ApplyDelta` loop iteration.  `copy` seeks the original to
`BlockIndex*bs` and copies `bs` bytes, truncated at the original's end
(`io.CopyN` stopping at EOF is not an error); `insert` writes `Data` at
`Position`; any other command kind fails with the `unknown command` error. -/
def applyCommand (bs : Nat) (original : List Nat) (out : List Nat)
    (c : DeltaCommand) : Except String (List Nat) :=
  if c.Command = "copy" then
    .ok (writeAt out c.Position ((original.drop (c.BlockIndex * bs)).take bs))
  else if c.Command = "insert" then
    .ok (writeAt out c.Position c.Data)
  else
    .error ("unknown command: " ++ c.Command)

/-- `ApplyDelta`: replay the commands in order into a fresh (truncated)
output file, stopping at the first failing command. -/
def ApplyDelta (bs : Nat) (original : List Nat) (cmds : List DeltaCommand) :
    Except String (List Nat) :=
  cmds.foldlM (applyCommand bs original) []

/-- The serial generator's state after reading the first `k` bytes of the
updated file. -/
def stateAt (bs : Nat) (original updated : List Nat) (k : Nat) : GenState :=
  (updated.take k).foldl (genStep bs (blockHashes bs original)) ⟨[], [], 0⟩

/-- The output byte range an applied command writes: a copy covers `bs` bytes
from its `Position`, an insert covers its `Data`. -/
def cmdCovers (bs : Nat) (c : DeltaCommand) (p : Nat) : Prop :=
  c.Position ≤ p ∧ p < c.Position + (if c.Command = "copy" then bs else c.Data.length)

instance (bs : Nat) (c : DeltaCommand) (p : Nat) : Decidable (cmdCovers bs c p) := by
  unfold cmdCovers
  infer_instance

/-- One iteration of the `processSection` loop of the parallel variant: like
`genStep`, except that the hash check also fires on the last position of the
section (`position == end-1`), the per-window hash sizes its `RollingHash` as
`min(blockSize, len(window))`, a copy's position is clamped below by the
section start (`max(position+1-blockSize, start)`), and a failed check at the
last position flushes the window as an `Insert` at `position - len + 1`.
That Go `int` expression is written `position + 1 - len` below: the window
never holds more bytes than have been read, so `len ≤ position + 1` and the
two agree, while `Nat` truncation of the literal left-to-right reading would
not. -/
def secStep (bs : Nat) (hashes : List Nat) (start endp : Nat)
    (s : GenState) (b : Nat) : GenState :=
  if (slideWindow bs s.window b).length = bs ∨ s.position = endp - 1 then
    match lookupFirst hashes
        (windowHash (min bs (slideWindow bs s.window b).length) (slideWindow bs s.window b)) with
    | some idx =>
        ⟨s.delta ++ [⟨"copy", max (s.position + 1 - bs) start, idx, []⟩], [], s.position + 1⟩
    | none =>
        if s.position = endp - 1 then
          ⟨s.delta ++ [⟨"insert", s.position + 1 - (slideWindow bs s.window b).length, 0,
              slideWindow bs s.window b⟩], [], s.position + 1⟩
        else ⟨s.delta, slideWindow bs s.window b, s.position + 1⟩
  else ⟨s.delta, slideWindow bs s.window b, s.position + 1⟩

/-- `processSection`: seek to `start`, scan the bytes in `[start, end)` with
`secStep`, and flush any window bytes left after the loop as a final
`Insert` at `position - len(window)` — literally the same post-loop flush as
the serial EOF handler, hence expressed with `genFinish`. -/
def processSection (bs : Nat) (hashes : List Nat) (updated : List Nat)
    (start endp : Nat) : List DeltaCommand :=
  genFinish (((updated.drop start).take (endp - start)).foldl
      (secStep bs hashes start endp) ⟨[], [], start⟩)

/-- Insertion into a `Position`-sorted command list. -/
def insertCmd (c : DeltaCommand) : List DeltaCommand → List DeltaCommand
  | [] => [c]
  | d :: ds => if c.Position ≤ d.Position then c :: d :: ds else d :: insertCmd c ds

/-- The merge step's `sort.Slice(deltas, …Position < …Position)`: the Go sort
is unstable, so its contract is only "some permutation sorted by `Position`
ascending"; this insertion sort realizes one admissible outcome. -/
def sortByPos (l : List DeltaCommand) : List DeltaCommand := l.foldr insertCmd []

/-- The sectioned-parallel `GenerateDelta`: split `[0, fileSize)` into
`fileSize/sectionSize + 1` sections of `sectionSize` bytes (the last clamped
to `fileSize`, and empty when `fileSize` is an exact multiple), run
`processSection` on each, concatenate the per-section command lists (worker
completion order is immaterial once sorted), and sort by `Position`. -/
def GenerateDeltaPar (bs ss : Nat) (original updated : List Nat) : List DeltaCommand :=
  sortByPos (((List.range (updated.length / ss + 1)).map (fun i =>
    processSection bs (blockHashes bs original) updated (i * ss)
      (min (i * ss + ss) updated.length))).flatten)

/-- The sectioned-parallel `GenerateDelta` with each worker's file access
made explicit: `updAccess i` is worker `i`'s attempt to open/read the updated
file.  The Go merge loop reads `sectionDelta, _ := processSection(...)`,
discarding the worker's error, so a failed worker contributes its `nil`
command list and the function still returns successfully — which is what
this embedding reproduces. -/
def GenerateDeltaParE (bs ss : Nat) (original : List Nat)
    (updAccess : Nat → Except String (List Nat)) (fileSize : Nat) :
    Except String (List DeltaCommand) :=
  .ok (sortByPos (((List.range (fileSize / ss + 1)).map (fun i =>
    match updAccess i with
    | .error _ => ([] : List DeltaCommand)
    | .ok bytes => processSection bs (blockHashes bs original) bytes (i * ss)
        (min (i * ss + ss) fileSize))).flatten))

theorem modPrime_pos : 0 < ModPrime := by decide

theorem addBytes_hash (data : List Nat) :
    ∀ rh : RollingHash,
      (addBytes rh data).hash = data.foldl (fun h b => (h * Base + b) % ModPrime) rh.hash := by
  induction data with
  | nil => intro rh; rfl
  | cons b rest ih =>
      intro rh
      simp only [addBytes, List.foldl_cons] at *
      exact ih _

theorem addBytes_first (data : List Nat) :
    ∀ rh : RollingHash, (addBytes rh data).first = rh.first := by
  induction data with
  | nil => intro rh; rfl
  | cons b rest ih =>
      intro rh
      simp only [addBytes, List.foldl_cons] at *
      exact ih _

theorem addBytes_baseN (data : List Nat) :
    ∀ rh : RollingHash, (addBytes rh data).baseN = rh.baseN := by
  induction data with
  | nil => intro rh; rfl
  | cons b rest ih =>
      intro rh
      simp only [addBytes, List.foldl_cons] at *
      exact ih _

theorem hashData_hash (rh : RollingHash) (data : List Nat) :
    (rh.HashData data).hash = polyHash data := by
  cases data with
  | nil => rfl
  | cons b rest =>
      simp only [RollingHash.HashData, polyHash, List.foldl_cons]
      rw [addBytes_hash]
      rfl

theorem hashData_first (rh : RollingHash) (b : Nat) (rest : List Nat) :
    (rh.HashData (b :: rest)).first = b := by
  simp only [RollingHash.HashData]
  rw [addBytes_first]
  rfl

theorem hashData_baseN (rh : RollingHash) (data : List Nat) :
    (rh.HashData data).baseN = rh.baseN := by
  cases data with
  | nil => rfl
  | cons b rest =>
      simp only [RollingHash.HashData]
      rw [addBytes_baseN]
      rfl

theorem baseNLoop_modEq (k : Nat) :
    ∀ acc : Nat, baseNLoop k acc ≡ acc * Base ^ k [MOD ModPrime] := by
  induction k with
  | zero => intro acc; simp [baseNLoop, Nat.ModEq.refl]
  | succ k ih =>
      intro acc
      simp only [baseNLoop]
      calc baseNLoop k (acc * Base % ModPrime)
          ≡ (acc * Base % ModPrime) * Base ^ k [MOD ModPrime] := ih _
        _ ≡ (acc * Base) * Base ^ k [MOD ModPrime] :=
            Nat.ModEq.mul_right _ (Nat.mod_modEq _ _)
        _ = acc * Base ^ (k + 1) := by ring

theorem polyHash_lt (data : List Nat) : polyHash data < ModPrime := by
  suffices h : ∀ (l : List Nat) (a : Nat), a < ModPrime →
      l.foldl (fun h b => (h * Base + b) % ModPrime) a < ModPrime by
    exact h data 0 modPrime_pos
  intro l
  induction l with
  | nil => intro a ha; simpa using ha
  | cons b rest ih =>
      intro a _
      simp only [List.foldl_cons]
      exact ih _ (Nat.mod_lt _ modPrime_pos)

theorem polyHash_concat (l : List Nat) (b : Nat) :
    polyHash (l ++ [b]) = (polyHash l * Base + b) % ModPrime := by
  simp [polyHash, List.foldl_append]

theorem foldl_hash_shift (l : List Nat) :
    ∀ a : Nat,
      l.foldl (fun h b => (h * Base + b) % ModPrime) a
        ≡ a * Base ^ l.length + polyHash l [MOD ModPrime] := by
  induction l with
  | nil => intro a; simp [polyHash, Nat.ModEq.refl]
  | cons b rest ih =>
      intro a
      have hbr : polyHash (b :: rest)
          = rest.foldl (fun h b => (h * Base + b) % ModPrime) ((0 * Base + b) % ModPrime) := by
        simp [polyHash]
      have htail : polyHash (b :: rest) ≡ b * Base ^ rest.length + polyHash rest
          [MOD ModPrime] := by
        rw [hbr]
        calc rest.foldl (fun h b => (h * Base + b) % ModPrime) ((0 * Base + b) % ModPrime)
            ≡ ((0 * Base + b) % ModPrime) * Base ^ rest.length + polyHash rest
                [MOD ModPrime] := ih _
          _ ≡ (0 * Base + b) * Base ^ rest.length + polyHash rest [MOD ModPrime] :=
              Nat.ModEq.add_right _ (Nat.ModEq.mul_right _ (Nat.mod_modEq _ _))
          _ = b * Base ^ rest.length + polyHash rest := by ring
      simp only [List.foldl_cons, List.length_cons]
      calc rest.foldl (fun h b => (h * Base + b) % ModPrime) ((a * Base + b) % ModPrime)
          ≡ ((a * Base + b) % ModPrime) * Base ^ rest.length + polyHash rest
              [MOD ModPrime] := ih _
        _ ≡ (a * Base + b) * Base ^ rest.length + polyHash rest [MOD ModPrime] :=
            Nat.ModEq.add_right _ (Nat.ModEq.mul_right _ (Nat.mod_modEq _ _))
        _ = a * Base ^ (rest.length + 1) + (b * Base ^ rest.length + polyHash rest) := by
            ring
        _ ≡ a * Base ^ (rest.length + 1) + polyHash (b :: rest) [MOD ModPrime] :=
            Nat.ModEq.add_left _ htail.symm

/-- The polynomial-hash recurrence: the head byte contributes
`b * Base^(length of the tail)` modulo `ModPrime`. -/
theorem polyHash_cons_modEq (b : Nat) (rest : List Nat) :
    polyHash (b :: rest) ≡ b * Base ^ rest.length + polyHash rest [MOD ModPrime] := by
  have hbr : polyHash (b :: rest)
      = rest.foldl (fun h b => (h * Base + b) % ModPrime) ((0 * Base + b) % ModPrime) := by
    simp [polyHash]
  rw [hbr]
  calc rest.foldl (fun h b => (h * Base + b) % ModPrime) ((0 * Base + b) % ModPrime)
      ≡ ((0 * Base + b) % ModPrime) * Base ^ rest.length + polyHash rest
          [MOD ModPrime] := foldl_hash_shift rest _
    _ ≡ (0 * Base + b) * Base ^ rest.length + polyHash rest [MOD ModPrime] :=
        Nat.ModEq.add_right _ (Nat.ModEq.mul_right _ (Nat.mod_modEq _ _))
    _ = b * Base ^ rest.length + polyHash rest := by ring

/-- C3: for every byte window `W` of size `windowSize ≥ 2` and every new byte
`b`, `Roll(W[0], b)` on a `RollingHash` whose state was set by `HashData(W)`
leaves the hash equal to the hash `HashData(W[1:] ++ [b])` computes from
scratch; the Go subtraction in `RemoveByte` never goes negative (its
subtrahend `first*baseN % ModPrime` is at most `hash + ModPrime`) and both the
intermediate and the final hash lie in `[0, ModPrime)`. -/
theorem C3_roll_matches_fresh_hash (W : List Nat) (b : Nat) (hlen : 2 ≤ W.length) :
    (((RollingHash.new W.length).HashData W).Roll W.headI b).GetHash
      = ((RollingHash.new W.length).HashData (W.tail ++ [b])).GetHash
    ∧ ((RollingHash.new W.length).HashData W).first *
        ((RollingHash.new W.length).HashData W).baseN % ModPrime
        ≤ ((RollingHash.new W.length).HashData W).GetHash + ModPrime
    ∧ (((RollingHash.new W.length).HashData W).RemoveByte W.headI).GetHash < ModPrime
    ∧ (((RollingHash.new W.length).HashData W).Roll W.headI b).GetHash < ModPrime := by
  match W, hlen with
  | w0 :: t, _ =>
    set rh := (RollingHash.new (w0 :: t).length).HashData (w0 :: t) with hrh
    have hhash : rh.hash = polyHash (w0 :: t) := hashData_hash _ _
    have hfirst : rh.first = w0 := hashData_first _ _ _
    have hbaseN : rh.baseN = baseNLoop ((w0 :: t).length - 1) 1 := hashData_baseN _ _
    have hk : (w0 :: t).length - 1 = t.length := by simp
    have hbN : rh.baseN ≡ Base ^ t.length [MOD ModPrime] := by
      rw [hbaseN, hk]
      simpa using baseNLoop_modEq t.length 1
    -- the subtrahend of the Go subtraction
    set S := rh.first * rh.baseN % ModPrime with hS
    have hSlt : S < ModPrime := Nat.mod_lt _ modPrime_pos
    have hSmod : S ≡ w0 * Base ^ t.length [MOD ModPrime] :=
      (Nat.mod_modEq _ _).trans (by rw [hfirst]; exact Nat.ModEq.mul_left _ hbN)
    -- the value after RemoveByte equals the fresh hash of the tail
    have hrem : (rh.hash + ModPrime - S) % ModPrime = polyHash t := by
      have hcancel : (rh.hash + ModPrime - S) + S = rh.hash + ModPrime :=
        Nat.sub_add_cancel (le_trans hSlt.le (Nat.le_add_left _ _))
      have h1 : (rh.hash + ModPrime - S) + S ≡ polyHash t + S [MOD ModPrime] := by
        rw [hcancel]
        calc rh.hash + ModPrime ≡ rh.hash + 0 [MOD ModPrime] :=
              Nat.ModEq.add_left _ (Nat.modEq_zero_iff_dvd.2 dvd_rfl)
          _ = rh.hash := by simp
          _ ≡ w0 * Base ^ t.length + polyHash t [MOD ModPrime] := by
              rw [hhash]; exact polyHash_cons_modEq w0 t
          _ ≡ S + polyHash t [MOD ModPrime] := Nat.ModEq.add_right _ hSmod.symm
          _ = polyHash t + S := by ring
      have h2 : rh.hash + ModPrime - S ≡ polyHash t [MOD ModPrime] :=
        Nat.ModEq.add_right_cancel' S h1
      calc (rh.hash + ModPrime - S) % ModPrime = polyHash t % ModPrime := h2
        _ = polyHash t := Nat.mod_eq_of_lt (polyHash_lt t)
    have hremove : (rh.RemoveByte (w0 :: t).headI).hash = polyHash t := by
      simp only [RollingHash.RemoveByte]
      exact hrem
    refine ⟨?_, ?_, ?_, ?_⟩
    · show ((rh.RemoveByte (w0 :: t).headI).AddByte b).hash
        = ((RollingHash.new (w0 :: t).length).HashData ((w0 :: t).tail ++ [b])).hash
      rw [hashData_hash]
      simp only [RollingHash.AddByte, hremove, List.tail_cons]
      exact (polyHash_concat t b).symm
    · exact le_trans hSlt.le (Nat.le_add_left _ _)
    · show (rh.RemoveByte (w0 :: t).headI).hash < ModPrime
      rw [hremove]; exact polyHash_lt t
    · show ((rh.RemoveByte (w0 :: t).headI).AddByte b).hash < ModPrime
      simp only [RollingHash.AddByte]
      exact Nat.mod_lt _ modPrime_pos

/-- Concrete instantiation of `C3_roll_matches_fresh_hash` at the window
`[104, 101]` with new byte `97`. -/
theorem C3_roll_matches_fresh_hash_witness :
    2 ≤ ([104, 101] : List Nat).length
    ∧ ((((RollingHash.new ([104, 101] : List Nat).length).HashData [104, 101]).Roll
          ([104, 101] : List Nat).headI 97).GetHash
        = ((RollingHash.new ([104, 101] : List Nat).length).HashData
            (([104, 101] : List Nat).tail ++ [97])).GetHash) :=
  ⟨by decide, (C3_roll_matches_fresh_hash [104, 101] 97 (by decide)).1⟩

theorem chunkGo_fuel (bs : Nat) (hbs : 0 < bs) :
    ∀ (f1 f2 : Nat) (l : List Nat), l.length ≤ f1 → l.length ≤ f2 →
      chunkGo bs f1 l = chunkGo bs f2 l := by
  intro f1
  induction f1 with
  | zero =>
      intro f2 l hl _
      have : l = [] := List.eq_nil_of_length_eq_zero (Nat.le_zero.1 hl)
      subst this
      cases f2 <;> rfl
  | succ f ih =>
      intro f2 l hl1 hl2
      cases l with
      | nil => cases f2 <;> rfl
      | cons x rest =>
          cases f2 with
          | zero => simp at hl2
          | succ g =>
              have hbs' : bs ≠ 0 := Nat.pos_iff_ne_zero.1 hbs
              simp only [List.length_cons] at hl1 hl2
              have hdrop1 : ((x :: rest).drop bs).length ≤ f := by
                simp only [List.length_drop, List.length_cons]
                omega
              have hdrop2 : ((x :: rest).drop bs).length ≤ g := by
                simp only [List.length_drop, List.length_cons]
                omega
              show (if bs = 0 then [] else
                  (x :: rest).take bs :: chunkGo bs f ((x :: rest).drop bs))
                = (if bs = 0 then [] else
                  (x :: rest).take bs :: chunkGo bs g ((x :: rest).drop bs))
              rw [if_neg hbs', if_neg hbs', ih g _ hdrop1 hdrop2]

theorem chunkGo_eq_chunkList (bs : Nat) (hbs : 0 < bs)
    (fuel : Nat) (l : List Nat) (h : l.length ≤ fuel) :
    chunkGo bs fuel l = chunkList bs l :=
  chunkGo_fuel bs hbs fuel l.length l h le_rfl

/-- Unfolding equation for `chunkList` on a nonempty list with positive block
size. -/
theorem chunkList_cons (bs : Nat) (hbs : 0 < bs) (l : List Nat) (hl : l ≠ []) :
    chunkList bs l = l.take bs :: chunkList bs (l.drop bs) := by
  cases l with
  | nil => exact absurd rfl hl
  | cons x rest =>
      have hbs' : bs ≠ 0 := Nat.pos_iff_ne_zero.1 hbs
      have hdrop : ((x :: rest).drop bs).length ≤ rest.length := by
        simp only [List.length_drop, List.length_cons]
        omega
      show chunkGo bs (rest.length + 1) (x :: rest) = _
      show (if bs = 0 then [] else
          (x :: rest).take bs :: chunkGo bs rest.length ((x :: rest).drop bs)) = _
      rw [if_neg hbs', chunkGo_eq_chunkList bs hbs _ _ hdrop]

theorem lookupFirst_spec :
    ∀ (hs : List Nat) (x i : Nat), lookupFirst hs x = some i →
      i < hs.length ∧ hs[i]? = some x ∧ ∀ j, j < i → hs[j]? ≠ some x := by
  intro hs
  induction hs with
  | nil => intro x i h; simp [lookupFirst] at h
  | cons h t ih =>
      intro x i hl
      by_cases hx : h = x
      · simp only [lookupFirst, if_pos hx] at hl
        cases hl
        refine ⟨by simp, by simp [hx], fun j hj => absurd hj (by omega)⟩
      · simp only [lookupFirst, if_neg hx] at hl
        cases hlt : lookupFirst t x with
        | none => rw [hlt] at hl; cases hl
        | some i' =>
            rw [hlt] at hl
            obtain rfl : i' + 1 = i := by simpa using hl
            obtain ⟨hltl, hget, hmin⟩ := ih x i' hlt
            refine ⟨by simpa using hltl, by simpa using hget, ?_⟩
            intro j hj
            cases j with
            | zero => simpa using hx
            | succ j' =>
                have := hmin j' (by omega)
                simpa using this

theorem lookupFirst_isSome_of_mem {hs : List Nat} {x : Nat} (hmem : x ∈ hs) :
    ∃ i, lookupFirst hs x = some i := by
  induction hs with
  | nil => cases hmem
  | cons h t ih =>
      by_cases hx : h = x
      · exact ⟨0, by simp [lookupFirst, hx]⟩
      · obtain ⟨i, hi⟩ := ih (by cases hmem with
          | head => exact absurd rfl hx
          | tail _ h' => exact h')
        exact ⟨i + 1, by simp [lookupFirst, hx, hi]⟩

theorem genStep_eq_of_not_full {bs : Nat} {hashes : List Nat} {s : GenState} {b : Nat}
    (h : (slideWindow bs s.window b).length ≠ bs) :
    genStep bs hashes s b = ⟨s.delta, slideWindow bs s.window b, s.position + 1⟩ := by
  simp [genStep, h]

theorem genStep_eq_of_none {bs : Nat} {hashes : List Nat} {s : GenState} {b : Nat}
    (h1 : (slideWindow bs s.window b).length = bs)
    (h2 : lookupFirst hashes (windowHash bs (slideWindow bs s.window b)) = none) :
    genStep bs hashes s b = ⟨s.delta, slideWindow bs s.window b, s.position + 1⟩ := by
  simp [genStep, h1, h2]

theorem genStep_eq_of_some {bs : Nat} {hashes : List Nat} {s : GenState} {b idx : Nat}
    (h1 : (slideWindow bs s.window b).length = bs)
    (h2 : lookupFirst hashes (windowHash bs (slideWindow bs s.window b)) = some idx) :
    genStep bs hashes s b
      = ⟨s.delta ++ [⟨"copy", s.position + 1 - bs, idx, []⟩], [], s.position + 1⟩ := by
  simp [genStep, h1, h2]

theorem genStep_position (bs : Nat) (hashes : List Nat) (s : GenState) (b : Nat) :
    (genStep bs hashes s b).position = s.position + 1 := by
  rcases eq_or_ne (slideWindow bs s.window b).length bs with h1 | h1
  · cases h2 : lookupFirst hashes (windowHash bs (slideWindow bs s.window b)) with
    | none => rw [genStep_eq_of_none h1 h2]
    | some idx => rw [genStep_eq_of_some h1 h2]
  · rw [genStep_eq_of_not_full h1]

theorem foldl_genStep_position (bs : Nat) (hashes : List Nat) (l : List Nat) :
    ∀ s : GenState,
      (List.foldl (genStep bs hashes) s l).position = s.position + l.length := by
  induction l with
  | nil => intro s; simp
  | cons b rest ih =>
      intro s
      simp only [List.foldl_cons, List.length_cons]
      rw [ih, genStep_position]
      omega

/-- Every command the serial loop appends is a copy whose `BlockIndex` comes
out of the block index (hence is below its length) and whose `Data` is
empty. -/
theorem foldl_genStep_delta_mem (bs : Nat) (hashes : List Nat) (l : List Nat) :
    ∀ (s : GenState) (c : DeltaCommand),
      c ∈ (List.foldl (genStep bs hashes) s l).delta →
      c ∈ s.delta ∨ (c.Command = "copy" ∧ c.BlockIndex < hashes.length ∧ c.Data = []) := by
  induction l with
  | nil => intro s c hc; exact Or.inl hc
  | cons b rest ih =>
      intro s c hc
      simp only [List.foldl_cons] at hc
      rcases ih (genStep bs hashes s b) c hc with hin | hcopy
      · rcases eq_or_ne (slideWindow bs s.window b).length bs with h1 | h1
        · cases h2 : lookupFirst hashes (windowHash bs (slideWindow bs s.window b)) with
          | none => rw [genStep_eq_of_none h1 h2] at hin; exact Or.inl hin
          | some idx =>
              rw [genStep_eq_of_some h1 h2] at hin
              simp only [List.mem_append, List.mem_singleton] at hin
              rcases hin with hin | rfl
              · exact Or.inl hin
              · exact Or.inr ⟨rfl, (lookupFirst_spec _ _ _ h2).1, rfl⟩
        · rw [genStep_eq_of_not_full h1] at hin; exact Or.inl hin
      · exact Or.inr hcopy

/-- C4: one serial-generation step: `position` advances by exactly 1 on every
path, and when the post-append window holds exactly `bs` bytes and its hash
is present in the block index, the step appends exactly one
`Copy{BlockIndex: first recorded position for that hash,
Position: position + 1 - bs}` and clears the window. -/
theorem C4_copy_step (bs : Nat) (hashes : List Nat) (s : GenState) (b : Nat) :
    (genStep bs hashes s b).position = s.position + 1
    ∧ ((slideWindow bs s.window b).length = bs →
        windowHash bs (slideWindow bs s.window b) ∈ hashes →
        ∃ idx, idx < hashes.length
          ∧ hashes[idx]? = some (windowHash bs (slideWindow bs s.window b))
          ∧ (∀ j, j < idx → hashes[j]? ≠ some (windowHash bs (slideWindow bs s.window b)))
          ∧ (genStep bs hashes s b).delta
              = s.delta ++ [⟨"copy", s.position + 1 - bs, idx, []⟩]
          ∧ (genStep bs hashes s b).window = []) := by
  refine ⟨genStep_position bs hashes s b, ?_⟩
  intro h1 hmem
  obtain ⟨idx, hidx⟩ := lookupFirst_isSome_of_mem hmem
  obtain ⟨hlt, hget, hmin⟩ := lookupFirst_spec _ _ _ hidx
  refine ⟨idx, hlt, hget, hmin, ?_, ?_⟩
  · rw [genStep_eq_of_some h1 hidx]
  · rw [genStep_eq_of_some h1 hidx]

/-- Concrete instantiation of `C4_copy_step`: block size 2, index `[1281]`,
window `[5]`, incoming byte `1` (so `polyHash [5,1] = 1281` matches). -/
theorem C4_copy_step_witness :
    (genStep 2 [1281] ⟨[], [5], 1⟩ 1).position = (⟨[], [5], 1⟩ : GenState).position + 1
    ∧ ∃ idx, idx < [1281].length
        ∧ [1281][idx]? = some (windowHash 2 (slideWindow 2 [5] 1))
        ∧ (∀ j, j < idx → [1281][j]? ≠ some (windowHash 2 (slideWindow 2 [5] 1)))
        ∧ (genStep 2 [1281] ⟨[], [5], 1⟩ 1).delta
            = ([] : List DeltaCommand) ++ [⟨"copy", 1 + 1 - 2, idx, []⟩]
        ∧ (genStep 2 [1281] ⟨[], [5], 1⟩ 1).window = [] :=
  ⟨(C4_copy_step 2 [1281] ⟨[], [5], 1⟩ 1).1,
   (C4_copy_step 2 [1281] ⟨[], [5], 1⟩ 1).2 (by decide) (by decide)⟩

/-- C5: when serial generation reaches end of input with a non-empty window,
it emits exactly one Insert — appended after the (all-copy) loop commands —
with `Position = position - len(window)` and `Data` the window contents. -/
theorem C5_eof_insert (bs : Nat) (O U : List Nat)
    (h : (genRun bs O U).window ≠ []) :
    GenerateDelta bs O U
      = (genRun bs O U).delta
        ++ [⟨"insert",
             (genRun bs O U).position - (genRun bs O U).window.length, 0,
             (genRun bs O U).window⟩]
    ∧ ∀ c ∈ (genRun bs O U).delta, c.Command = "copy" := by
  constructor
  · unfold GenerateDelta genFinish
    rw [if_pos (by simpa [List.length_pos] using h)]
  · intro c hc
    rcases foldl_genStep_delta_mem bs (blockHashes bs O) U ⟨[], [], 0⟩ c hc with hin | hcopy
    · cases hin
    · exact hcopy.1

/-- Concrete instantiation of `C5_eof_insert`: block size 1, empty original,
updated file `[7]` (the single byte never matches, so it is flushed at EOF). -/
theorem C5_eof_insert_witness :
    GenerateDelta 1 [] [7]
      = (genRun 1 [] [7]).delta
        ++ [⟨"insert",
             (genRun 1 [] [7]).position - (genRun 1 [] [7]).window.length, 0,
             (genRun 1 [] [7]).window⟩]
    ∧ ∀ c ∈ (genRun 1 [] [7]).delta, c.Command = "copy" :=
  C5_eof_insert 1 [] [7] (by decide)

/-- C6: an instruction whose kind is neither `copy` nor `insert` makes
`ApplyDelta` return the invalid-command error at that instruction; commands
after it are never processed (the result does not depend on them). -/
theorem C6_unknown_command_aborts (bs : Nat) (original : List Nat)
    (pre post : List DeltaCommand) (bad : DeltaCommand)
    (hpre : ∀ c ∈ pre, c.Command = "copy" ∨ c.Command = "insert")
    (hbad1 : bad.Command ≠ "copy") (hbad2 : bad.Command ≠ "insert") :
    ApplyDelta bs original (pre ++ bad :: post)
      = .error ("unknown command: " ++ bad.Command) := by
  unfold ApplyDelta
  suffices hgen : ∀ (pre : List DeltaCommand) (out : List Nat),
      (∀ c ∈ pre, c.Command = "copy" ∨ c.Command = "insert") →
      (pre ++ bad :: post).foldlM (applyCommand bs original) out
        = .error ("unknown command: " ++ bad.Command) by
    exact hgen pre [] hpre
  intro pre
  induction pre with
  | nil =>
      intro out _
      simp only [List.nil_append, List.foldlM_cons]
      rw [show applyCommand bs original out bad
            = .error ("unknown command: " ++ bad.Command) by
          simp [applyCommand, hbad1, hbad2]]
      rfl
  | cons c pre' ih =>
      intro out hall
      simp only [List.cons_append, List.foldlM_cons]
      rcases hall c (by simp) with hc | hc
      · rw [show applyCommand bs original out c
              = .ok (writeAt out c.Position ((original.drop (c.BlockIndex * bs)).take bs)) by
            simp [applyCommand, hc]]
        exact ih _ (fun d hd => hall d (by simp [hd]))
      · rw [show applyCommand bs original out c
              = .ok (writeAt out c.Position c.Data) by
            simp [applyCommand, hc]]
        exact ih _ (fun d hd => hall d (by simp [hd]))

/-- Concrete instantiation of `C6_unknown_command_aborts`: a valid copy, then
a `delete` command, then a trailing insert that is never reached. -/
theorem C6_unknown_command_aborts_witness :
    ApplyDelta 2 [1, 2]
        ([⟨"copy", 0, 0, []⟩] ++ (⟨"delete", 0, 0, []⟩ : DeltaCommand) :: [⟨"insert", 0, 0, []⟩])
      = .error ("unknown command: " ++ (⟨"delete", 0, 0, []⟩ : DeltaCommand).Command) :=
  C6_unknown_command_aborts 2 [1, 2] [⟨"copy", 0, 0, []⟩] [⟨"insert", 0, 0, []⟩]
    ⟨"delete", 0, 0, []⟩ (by decide) (by decide) (by decide)

theorem slideWindow_length (bs : Nat) (w : List Nat) (b : Nat) :
    (slideWindow bs w b).length = if bs < w.length + 1 then w.length else w.length + 1 := by
  by_cases h : bs < w.length + 1 <;>
    simp [slideWindow, h, List.length_tail]

theorem slideWindow_length_le {bs : Nat} {w : List Nat} (b : Nat) (h : w.length ≤ bs) :
    (slideWindow bs w b).length ≤ bs := by
  rw [slideWindow_length]
  split <;> omega

theorem slideWindow_length_le_succ (bs : Nat) (w : List Nat) (b : Nat) :
    (slideWindow bs w b).length ≤ w.length + 1 := by
  rw [slideWindow_length]
  split <;> omega

/-- Every serial step either emits one copy command and clears the window, or
leaves the command list unchanged and keeps the slid window. -/
theorem genStep_shape (bs : Nat) (hashes : List Nat) (s : GenState) (b : Nat) :
    (∃ idx, genStep bs hashes s b
        = ⟨s.delta ++ [⟨"copy", s.position + 1 - bs, idx, []⟩], [], s.position + 1⟩
      ∧ (slideWindow bs s.window b).length = bs)
    ∨ genStep bs hashes s b = ⟨s.delta, slideWindow bs s.window b, s.position + 1⟩ := by
  rcases eq_or_ne (slideWindow bs s.window b).length bs with h1 | h1
  · cases h2 : lookupFirst hashes (windowHash bs (slideWindow bs s.window b)) with
    | none => exact Or.inr (genStep_eq_of_none h1 h2)
    | some idx => exact Or.inl ⟨idx, genStep_eq_of_some h1 h2, h1⟩
  · exact Or.inr (genStep_eq_of_not_full h1)

theorem genStep_window_le {bs : Nat} {hashes : List Nat} {s : GenState} {b : Nat}
    (hwb : s.window.length ≤ bs) :
    (genStep bs hashes s b).window.length ≤ bs := by
  rcases genStep_shape bs hashes s b with ⟨idx, heq, h1⟩ | heq <;> rw [heq]
  · simp
  · exact slideWindow_length_le b hwb

theorem genStep_window_pos_le {bs : Nat} {hashes : List Nat} {s : GenState} {b : Nat}
    (hwp : s.window.length ≤ s.position) :
    (genStep bs hashes s b).window.length ≤ (genStep bs hashes s b).position := by
  rcases genStep_shape bs hashes s b with ⟨idx, heq, h1⟩ | heq <;> rw [heq]
  · simp
  · show (slideWindow bs s.window b).length ≤ s.position + 1
    have := slideWindow_length_le_succ bs s.window b
    omega

/-- The output position where the current window begins
(`position - len(window)`) never decreases. -/
theorem genStep_wstart_mono (bs : Nat) (hashes : List Nat) (s : GenState) (b : Nat) :
    s.position - s.window.length
      ≤ (genStep bs hashes s b).position - (genStep bs hashes s b).window.length := by
  rcases genStep_shape bs hashes s b with ⟨idx, heq, h1⟩ | heq <;> rw [heq]
  · dsimp only
    simp only [List.length_nil]
    omega
  · show s.position - s.window.length ≤ s.position + 1 - (slideWindow bs s.window b).length
    rw [slideWindow_length]
    split <;> omega

theorem foldl_genStep_wstart_mono (bs : Nat) (hashes : List Nat) (l : List Nat) :
    ∀ s : GenState,
      s.position - s.window.length
        ≤ (List.foldl (genStep bs hashes) s l).position
          - (List.foldl (genStep bs hashes) s l).window.length := by
  induction l with
  | nil => intro s; exact le_rfl
  | cons b rest ih =>
      intro s
      exact le_trans (genStep_wstart_mono bs hashes s b) (ih _)

/-- One serial step preserves the loop invariant: the window never holds more
bytes than were read or than `bs`, and every accumulated command is a copy
whose covered range `[Position, Position+bs)` ends at or before the start of
the current window. -/
theorem genStep_invariant {bs : Nat} {hashes : List Nat} {s : GenState} {b : Nat}
    (hwp : s.window.length ≤ s.position) (hwb : s.window.length ≤ bs)
    (hdi : ∀ c ∈ s.delta, c.Command = "copy"
        ∧ c.Position + bs ≤ s.position - s.window.length) :
    (genStep bs hashes s b).window.length ≤ (genStep bs hashes s b).position
    ∧ (genStep bs hashes s b).window.length ≤ bs
    ∧ ∀ c ∈ (genStep bs hashes s b).delta, c.Command = "copy"
        ∧ c.Position + bs ≤ (genStep bs hashes s b).position
          - (genStep bs hashes s b).window.length := by
  refine ⟨genStep_window_pos_le hwp, genStep_window_le hwb, ?_⟩
  have hmono := genStep_wstart_mono bs hashes s b
  rcases genStep_shape bs hashes s b with ⟨idx, heq, h1⟩ | heq
  · rw [heq]
    intro c hc
    simp only [List.mem_append, List.mem_singleton] at hc
    rcases hc with hc | rfl
    · obtain ⟨h2, h3⟩ := hdi c hc
      refine ⟨h2, ?_⟩
      dsimp only
      simp only [List.length_nil]
      omega
    · refine ⟨rfl, ?_⟩
      have hb1 : (slideWindow bs s.window b).length ≤ s.window.length + 1 :=
        slideWindow_length_le_succ bs s.window b
      dsimp only
      simp only [List.length_nil]
      omega
  · rw [heq]
    intro c hc
    rw [heq] at hmono
    obtain ⟨h2, h3⟩ := hdi c hc
    exact ⟨h2, le_trans h3 hmono⟩

theorem foldl_genStep_invariant (bs : Nat) (hashes : List Nat) (l : List Nat) :
    ∀ s : GenState,
      s.window.length ≤ s.position → s.window.length ≤ bs →
      (∀ c ∈ s.delta, c.Command = "copy"
          ∧ c.Position + bs ≤ s.position - s.window.length) →
      (List.foldl (genStep bs hashes) s l).window.length
          ≤ (List.foldl (genStep bs hashes) s l).position
      ∧ (List.foldl (genStep bs hashes) s l).window.length ≤ bs
      ∧ ∀ c ∈ (List.foldl (genStep bs hashes) s l).delta, c.Command = "copy"
          ∧ c.Position + bs ≤ (List.foldl (genStep bs hashes) s l).position
            - (List.foldl (genStep bs hashes) s l).window.length := by
  induction l with
  | nil => intro s h1 h2 h3; exact ⟨h1, h2, h3⟩
  | cons b rest ih =>
      intro s h1 h2 h3
      obtain ⟨g1, g2, g3⟩ := genStep_invariant h1 h2 h3
      exact ih _ g1 g2 g3

/-- Any command present after folding but absent before was emitted at some
step `j` at or after the starting position, as a copy at `Position =
j + 1 - bs` with `bs ≤ j + 1`. -/
theorem foldl_genStep_new_cmds (bs : Nat) (hashes : List Nat) (l : List Nat) :
    ∀ (s : GenState) (c : DeltaCommand),
      s.window.length ≤ s.position → s.window.length ≤ bs →
      c ∈ (List.foldl (genStep bs hashes) s l).delta →
      c ∈ s.delta
      ∨ (c.Command = "copy"
          ∧ ∃ j, s.position ≤ j ∧ bs ≤ j + 1 ∧ c.Position = j + 1 - bs) := by
  induction l with
  | nil => intro s c _ _ hc; exact Or.inl hc
  | cons b rest ih =>
      intro s c hwp hwb hc
      simp only [List.foldl_cons] at hc
      rcases ih _ c (genStep_window_pos_le hwp) (genStep_window_le hwb) hc with hin | hnew
      · rcases genStep_shape bs hashes s b with ⟨idx, heq, h1⟩ | heq
        · rw [heq] at hin
          simp only [List.mem_append, List.mem_singleton] at hin
          rcases hin with hin | rfl
          · exact Or.inl hin
          · refine Or.inr ⟨rfl, s.position, le_rfl, ?_, rfl⟩
            have hb1 := slideWindow_length_le_succ bs s.window b
            omega
        · rw [heq] at hin
          exact Or.inl hin
      · obtain ⟨hcmd, j, hj1, hj2, hj3⟩ := hnew
        refine Or.inr ⟨hcmd, j, ?_, hj2, hj3⟩
        have := genStep_position bs hashes s b
        omega

theorem take_succ_getD (l : List Nat) (k : Nat) (h : k < l.length) :
    l.take (k + 1) = l.take k ++ [l.getD k 0] := by
  rw [List.take_succ, List.getElem?_eq_getElem h]
  simp [List.getD_eq_getElem?_getD, List.getElem?_eq_getElem h]

theorem stateAt_position (bs : Nat) (O U : List Nat) (k : Nat) (hk : k ≤ U.length) :
    (stateAt bs O U k).position = k := by
  unfold stateAt
  rw [foldl_genStep_position]
  simp only [List.length_take]
  omega

theorem stateAt_succ (bs : Nat) (O U : List Nat) (k : Nat) (hk : k < U.length) :
    stateAt bs O U (k + 1)
      = genStep bs (blockHashes bs O) (stateAt bs O U k) (U.getD k 0) := by
  unfold stateAt
  rw [take_succ_getD U k hk, List.foldl_append]
  rfl

theorem genRun_eq_fold_stateAt (bs : Nat) (O U : List Nat) (k : Nat) :
    genRun bs O U
      = (U.drop k).foldl (genStep bs (blockHashes bs O)) (stateAt bs O U k) := by
  unfold genRun stateAt
  conv_lhs => rw [← List.take_append_drop k U]
  rw [List.foldl_append]

theorem stateAt_invariant (bs : Nat) (O U : List Nat) (k : Nat) :
    (stateAt bs O U k).window.length ≤ (stateAt bs O U k).position
    ∧ (stateAt bs O U k).window.length ≤ bs
    ∧ ∀ c ∈ (stateAt bs O U k).delta, c.Command = "copy"
        ∧ c.Position + bs ≤ (stateAt bs O U k).position
          - (stateAt bs O U k).window.length := by
  unfold stateAt
  exact foldl_genStep_invariant bs (blockHashes bs O) (U.take k) ⟨[], [], 0⟩
    (by simp) (by simp) (by intro c hc; cases hc)

/-- C9: the serial generator appends an Insert only at end of input, so every
returned list is a block of copy commands optionally followed by exactly one
trailing Insert; and the output position `k - bs` of a byte evicted from the
front of a full window at a step `k` that finds no hash match is covered by
no command of the returned list. -/
theorem C9_insert_last_eviction_lost (bs : Nat) (O U : List Nat) :
    (∃ ds, (∀ c ∈ ds, c.Command = "copy")
      ∧ (GenerateDelta bs O U = ds
         ∨ ∃ ins, ins.Command = "insert" ∧ GenerateDelta bs O U = ds ++ [ins]))
    ∧ ∀ k, k < U.length →
        (stateAt bs O U k).window.length = bs →
        lookupFirst (blockHashes bs O)
            (windowHash bs (slideWindow bs (stateAt bs O U k).window (U.getD k 0)))
          = none →
        ∀ c ∈ GenerateDelta bs O U, ¬ cmdCovers bs c (k - bs) := by
  constructor
  · refine ⟨(genRun bs O U).delta, ?_, ?_⟩
    · intro c hc
      rcases foldl_genStep_delta_mem bs (blockHashes bs O) U ⟨[], [], 0⟩ c hc with hin | hcp
      · cases hin
      · exact hcp.1
    · unfold GenerateDelta genFinish
      by_cases hw : (genRun bs O U).window.length > 0
      · exact Or.inr ⟨_, rfl, by rw [if_pos hw]⟩
      · exact Or.inl (by rw [if_neg hw])
  · intro k hk hfull hnone c hc hcov
    obtain ⟨hwp, hwb, hdi⟩ := stateAt_invariant bs O U k
    have hpos : (stateAt bs O U k).position = k := stateAt_position bs O U k hk.le
    have hbsk : bs ≤ k := by
      have h := hwp
      rw [hfull, hpos] at h
      exact h
    have h1 : (slideWindow bs (stateAt bs O U k).window (U.getD k 0)).length = bs := by
      rw [slideWindow_length, hfull]
      simp
    have hs1 : stateAt bs O U (k + 1)
        = ⟨(stateAt bs O U k).delta,
           slideWindow bs (stateAt bs O U k).window (U.getD k 0),
           (stateAt bs O U k).position + 1⟩ := by
      rw [stateAt_succ bs O U k hk, genStep_eq_of_none h1 hnone]
    -- commands already emitted or still to come never cover `k - bs`
    have hdelta : ∀ d ∈ (genRun bs O U).delta, ¬ cmdCovers bs d (k - bs) := by
      intro d hd hdcov
      rw [genRun_eq_fold_stateAt bs O U (k + 1)] at hd
      rcases foldl_genStep_new_cmds bs (blockHashes bs O) (U.drop (k + 1))
          (stateAt bs O U (k + 1)) d
          (by rw [hs1]; simp only [h1, hpos]; omega)
          (by rw [hs1]; simp only [h1]; exact le_rfl) hd with hin | hnew
      · rw [hs1] at hin
        obtain ⟨hdcmd, hdbound⟩ := hdi d hin
        obtain ⟨hle, hlt⟩ := hdcov
        rw [if_pos hdcmd] at hlt
        rw [hpos, hfull] at hdbound
        omega
      · obtain ⟨hdcmd, j, hj1, hj2, hj3⟩ := hnew
        rw [hs1] at hj1
        simp only [hpos] at hj1
        obtain ⟨hle, hlt⟩ := hdcov
        omega
    have hwstart : k + 1 - bs
        ≤ (genRun bs O U).position - (genRun bs O U).window.length := by
      have := foldl_genStep_wstart_mono bs (blockHashes bs O) (U.drop (k + 1))
        (stateAt bs O U (k + 1))
      rw [← genRun_eq_fold_stateAt bs O U (k + 1)] at this
      rw [hs1] at this
      simp only [h1, hpos] at this
      omega
    unfold GenerateDelta genFinish at hc
    by_cases hw : (genRun bs O U).window.length > 0
    · rw [if_pos hw] at hc
      simp only [List.mem_append, List.mem_singleton] at hc
      rcases hc with hc | rfl
      · exact hdelta c hc hcov
      · obtain ⟨hle, hlt⟩ := hcov
        simp only at hle
        omega
    · rw [if_neg hw] at hc
      exact hdelta c hc hcov

/-- Concrete instantiation of `C9_insert_last_eviction_lost`: block size 2,
empty original, updated file `[1,2,3]`; at step `k = 2` the full window
`[1,2]` evicts byte `1` (output position 0) without a match, and the returned
list (one trailing insert of `[2,3]` at position 1) never covers position
0. -/
theorem C9_insert_last_eviction_lost_witness :
    (∃ ds, (∀ c ∈ ds, c.Command = "copy")
      ∧ (GenerateDelta 2 [] [1, 2, 3] = ds
         ∨ ∃ ins, ins.Command = "insert" ∧ GenerateDelta 2 [] [1, 2, 3] = ds ++ [ins]))
    ∧ ∀ c ∈ GenerateDelta 2 [] [1, 2, 3], ¬ cmdCovers 2 c (2 - 2) :=
  ⟨(C9_insert_last_eviction_lost 2 [] [1, 2, 3]).1,
   (C9_insert_last_eviction_lost 2 [] [1, 2, 3]).2 2 (by decide) (by decide) (by decide)⟩

theorem mem_genFinish (s : GenState) (c : DeltaCommand) (hc : c ∈ genFinish s) :
    c ∈ s.delta ∨ c = ⟨"insert", s.position - s.window.length, 0, s.window⟩ := by
  unfold genFinish at hc
  split at hc
  · simp only [List.mem_append, List.mem_singleton] at hc
    exact hc
  · exact Or.inl hc

theorem secStep_delta_mem (bs : Nat) (hashes : List Nat) (start endp : Nat)
    (s : GenState) (b : Nat) (c : DeltaCommand)
    (hc : c ∈ (secStep bs hashes start endp s b).delta) :
    c ∈ s.delta ∨ (c.Command = "copy" ∧ c.BlockIndex < hashes.length)
    ∨ c.Command = "insert" := by
  unfold secStep at hc
  split at hc
  · split at hc
    next idx heq =>
      dsimp only at hc
      simp only [List.mem_append, List.mem_singleton] at hc
      rcases hc with hc | rfl
      · exact Or.inl hc
      · exact Or.inr (Or.inl ⟨rfl, (lookupFirst_spec _ _ _ heq).1⟩)
    next heq =>
      split at hc
      · dsimp only at hc
        simp only [List.mem_append, List.mem_singleton] at hc
        rcases hc with hc | rfl
        · exact Or.inl hc
        · exact Or.inr (Or.inr rfl)
      · exact Or.inl hc
  · exact Or.inl hc

theorem foldl_secStep_delta_mem (bs : Nat) (hashes : List Nat) (start endp : Nat)
    (l : List Nat) :
    ∀ (s : GenState) (c : DeltaCommand),
      c ∈ (List.foldl (secStep bs hashes start endp) s l).delta →
      c ∈ s.delta ∨ (c.Command = "copy" ∧ c.BlockIndex < hashes.length)
      ∨ c.Command = "insert" := by
  induction l with
  | nil => intro s c hc; exact Or.inl hc
  | cons b rest ih =>
      intro s c hc
      simp only [List.foldl_cons] at hc
      rcases ih _ c hc with hin | hrest
      · exact secStep_delta_mem bs hashes start endp s b c hin
      · exact Or.inr hrest

theorem processSection_delta_mem (bs : Nat) (hashes : List Nat)
    (updated : List Nat) (start endp : Nat) (c : DeltaCommand)
    (hc : c ∈ processSection bs hashes updated start endp) :
    (c.Command = "copy" ∧ c.BlockIndex < hashes.length) ∨ c.Command = "insert" := by
  unfold processSection at hc
  rcases mem_genFinish _ _ hc with hd | rfl
  · rcases foldl_secStep_delta_mem bs hashes start endp _ _ _ hd with h0 | hres
    · cases h0
    · exact hres
  · exact Or.inr rfl

theorem mem_insertCmd (c d : DeltaCommand) (l : List DeltaCommand) :
    c ∈ insertCmd d l ↔ c = d ∨ c ∈ l := by
  induction l with
  | nil => simp [insertCmd]
  | cons e es ih =>
      unfold insertCmd
      split
      · simp
      · simp only [List.mem_cons, ih]
        tauto

theorem mem_sortByPos (c : DeltaCommand) (l : List DeltaCommand) :
    c ∈ sortByPos l ↔ c ∈ l := by
  induction l with
  | nil => simp [sortByPos]
  | cons d ds ih =>
      show c ∈ insertCmd d (sortByPos ds) ↔ _
      rw [mem_insertCmd]
      simp [ih]

/-- C10: every Copy emitted by delta generation — serial or
sectioned-parallel — carries a `BlockIndex` drawn from the block index of the
original file, hence strictly below its number of blocks. -/
theorem C10_copy_blockIndex_in_range (bs ss : Nat) (O U : List Nat) :
    (∀ c ∈ GenerateDelta bs O U,
        c.Command = "copy" → c.BlockIndex < (chunkList bs O).length)
    ∧ (∀ c ∈ GenerateDeltaPar bs ss O U,
        c.Command = "copy" → c.BlockIndex < (chunkList bs O).length) := by
  have hlen : (blockHashes bs O).length = (chunkList bs O).length :=
    List.length_map _ _
  constructor
  · intro c hc hcopy
    unfold GenerateDelta at hc
    rcases mem_genFinish _ _ hc with hd | rfl
    · rcases foldl_genStep_delta_mem bs (blockHashes bs O) U ⟨[], [], 0⟩ c hd with h0 | hres
      · cases h0
      · rw [← hlen]
        exact hres.2.1
    · simp at hcopy
  · intro c hc hcopy
    unfold GenerateDeltaPar at hc
    rw [mem_sortByPos] at hc
    rw [List.mem_flatten] at hc
    obtain ⟨l, hl, hcl⟩ := hc
    rw [List.mem_map] at hl
    obtain ⟨i, _, rfl⟩ := hl
    rcases processSection_delta_mem _ _ _ _ _ _ hcl with hres | hins
    · rw [← hlen]
      exact hres.2
    · exact absurd (hcopy.symm.trans hins) (by decide)

/-- Concrete instantiation of `C10_copy_blockIndex_in_range`: block size 1,
section size 1, original `[5]`, updated `[5]`; both generators emit
`Copy{BlockIndex: 0}` and `0 < 1` blocks. -/
theorem C10_copy_blockIndex_in_range_witness :
    (⟨"copy", 0, 0, []⟩ : DeltaCommand).BlockIndex < (chunkList 1 [5]).length
    ∧ (⟨"copy", 0, 0, []⟩ : DeltaCommand).BlockIndex < (chunkList 1 [5]).length :=
  ⟨(C10_copy_blockIndex_in_range 1 1 [5] [5]).1 ⟨"copy", 0, 0, []⟩
      (by decide) (by decide),
   (C10_copy_blockIndex_in_range 1 1 [5] [5]).2 ⟨"copy", 0, 0, []⟩
      (by decide) (by decide)⟩

/-- C7 (parallel variant, contradicting the claim): every worker fails to
open the updated file, yet the sectioned-parallel generator returns `.ok`
with an empty command list: the merge loop `sectionDelta, _ :=
processSection(...)` discards worker errors instead of propagating them. -/
theorem C7_parallel_swallows_worker_errors :
    GenerateDeltaParE blockSize sectionSize []
        (fun _ => .error "open updatedFile: no such file or directory") 5
      = .ok [] := by
  rfl


theorem lookupFirst_nil (x : Nat) : lookupFirst [] x = none := rfl

theorem blockHashes_nil (bs : Nat) : blockHashes bs [] = [] := rfl

/-- With an empty block index the serial step never matches: it only slides
the window and advances the cursor. -/
theorem genStep_empty_hashes (bs : Nat) (s : GenState) (b : Nat) :
    genStep bs [] s b = ⟨s.delta, slideWindow bs s.window b, s.position + 1⟩ := by
  rcases eq_or_ne (slideWindow bs s.window b).length bs with h1 | h1
  · exact genStep_eq_of_none h1 rfl
  · exact genStep_eq_of_not_full h1

theorem slideWindow_replicate (bs m : Nat) (c : Nat) (hm : m ≤ bs) :
    slideWindow bs (List.replicate m c) c = List.replicate (min (m + 1) bs) c := by
  have h1 : List.replicate m c ++ [c] = List.replicate (m + 1) c := by
    rw [← List.replicate_succ' ]
  unfold slideWindow
  simp only [h1, List.length_replicate]
  by_cases h : bs < m + 1
  · rw [if_pos h]
    have hm' : m = bs := by omega
    subst hm'
    rw [List.replicate_succ, List.tail_cons, Nat.min_eq_right (by omega)]
  · rw [if_neg h, Nat.min_eq_left (by omega)]

/-- Serial generation over a constant file with an empty index: the window
just fills up and slides, nothing is emitted. -/
theorem foldl_genStep_empty_replicate (bs c : Nat) :
    ∀ (n m p : Nat) (d : List DeltaCommand), m ≤ bs →
      List.foldl (genStep bs []) ⟨d, List.replicate m c, p⟩ (List.replicate n c)
        = ⟨d, List.replicate (min (m + n) bs) c, p + n⟩ := by
  intro n
  induction n with
  | zero =>
      intro m p d hm
      simp [Nat.min_eq_left hm]
  | succ n ih =>
      intro m p d hm
      rw [List.replicate_succ, List.foldl_cons, genStep_empty_hashes]
      dsimp only
      rw [slideWindow_replicate bs m c hm]
      rw [ih (min (m + 1) bs) (p + 1) d (Nat.min_le_right _ _)]
      congr 1
      · congr 1
        omega
      · omega

theorem genFinish_eq_of_nonempty (s : GenState) (h : s.window ≠ []) :
    genFinish s
      = s.delta ++ [⟨"insert", s.position - s.window.length, 0, s.window⟩] := by
  unfold genFinish
  rw [if_pos (by simpa [List.length_pos] using h)]

theorem writeAt_nil (p : Nat) (d : List Nat) :
    writeAt [] p d = List.replicate p 0 ++ d := by
  unfold writeAt
  simp only [List.nil_append, List.length_nil, Nat.sub_zero]
  rw [List.take_replicate, List.drop_replicate, Nat.min_self,
      Nat.sub_eq_zero_of_le (Nat.le_add_right _ _)]
  simp

theorem writeAt_at_end (out d : List Nat) : writeAt out out.length d = out ++ d := by
  unfold writeAt
  rw [Nat.sub_self]
  simp only [List.replicate_zero, List.append_nil, List.take_length]
  rw [List.drop_eq_nil_of_le (Nat.le_add_right _ _)]
  simp

/-- C1 (refuted at the program's own block size 1024): original = empty file,
updated = 1025 bytes of value 1 — no two distinct block contents share a hash
anywhere in this run — yet the generated delta is a single
`Insert{Position: 1, Data: last 1024 bytes}`, and replaying it produces a
zero byte at position 0 instead of the evicted first byte.  `apply(O,
generateDelta(O,U))` is not `U` byte-for-byte. -/
theorem C1_roundtrip_fails_at_blockSize :
    ApplyDelta blockSize [] (GenerateDelta blockSize [] (List.replicate 1025 1))
      = .ok (List.replicate 1 0 ++ List.replicate 1024 1)
    ∧ List.replicate 1 0 ++ List.replicate 1024 1 ≠ (List.replicate 1025 1 : List Nat) := by
  have hgen : GenerateDelta blockSize [] (List.replicate 1025 1)
      = [⟨"insert", 1, 0, List.replicate 1024 1⟩] := by
    unfold GenerateDelta genRun
    rw [blockHashes_nil]
    have h0 : (⟨[], [], 0⟩ : GenState) = ⟨[], List.replicate 0 1, 0⟩ := rfl
    rw [h0, foldl_genStep_empty_replicate blockSize 1 1025 0 0 [] (by decide)]
    have hmin : min (0 + 1025) blockSize = 1024 := by decide
    rw [hmin]
    have hne : (List.replicate 1024 (1 : Nat)) ≠ [] := by
      intro hnil
      have := congrArg List.length hnil
      rw [List.length_replicate] at this
      simp at this
    rw [genFinish_eq_of_nonempty ⟨[], List.replicate 1024 1, 0 + 1025⟩ hne]
    dsimp only
    rw [List.length_replicate]
    norm_num
  rw [hgen]
  constructor
  · have happly : ApplyDelta blockSize [] [⟨"insert", 1, 0, List.replicate 1024 1⟩]
        = .ok (writeAt [] 1 (List.replicate 1024 1)) := rfl
    rw [happly, writeAt_nil]
  · intro h
    have h0 := congrArg (fun l => l.getD 0 7) h
    dsimp only at h0
    have e1 : (List.replicate 1 (0 : Nat) ++ List.replicate 1024 1).getD 0 7 = 0 := rfl
    have e2 : (List.replicate 1025 (1 : Nat)).getD 0 7 = 1 := rfl
    rw [e1, e2] at h0
    exact absurd h0 (by decide)


theorem slideWindow_no_evict {bs : Nat} {w : List Nat} (b : Nat)
    (h : w.length + 1 ≤ bs) : slideWindow bs w b = w ++ [b] := by
  unfold slideWindow
  rw [if_neg]
  simp only [List.length_append, List.length_cons, List.length_nil]
  omega

theorem windowHash_eq_polyHash (bs : Nat) (w : List Nat) :
    windowHash bs w = polyHash w := by
  unfold windowHash RollingHash.GetHash
  rw [addBytes_hash]
  rfl

theorem blockHash_eq_polyHash (block : List Nat) : blockHash block = polyHash block :=
  hashData_hash _ _

/-- Filling an under-full window with too few bytes to reach `bs` emits
nothing: the bytes are appended and the cursor advances. -/
theorem fold_below (bs : Nat) (hashes : List Nat) :
    ∀ (w win : List Nat) (d : List DeltaCommand) (p : Nat),
      win.length + w.length < bs →
      List.foldl (genStep bs hashes) ⟨d, win, p⟩ w = ⟨d, win ++ w, p + w.length⟩ := by
  intro w
  induction w with
  | nil => intro win d p _; simp
  | cons b w' ih =>
      intro win d p hlen
      simp only [List.length_cons] at hlen
      have hsw : slideWindow bs win b = win ++ [b] := slideWindow_no_evict b (by omega)
      have h1 : (slideWindow bs win b).length ≠ bs := by
        rw [hsw]
        simp only [List.length_append, List.length_cons, List.length_nil]
        omega
      rw [List.foldl_cons, @genStep_eq_of_not_full bs hashes ⟨d, win, p⟩ b h1]
      dsimp only
      rw [hsw, ih (win ++ [b]) d (p + 1)
        (by simp only [List.length_append, List.length_cons, List.length_nil]; omega)]
      rw [List.append_cons win b w']
      congr 1
      simp only [List.length_cons]
      omega

/-- Filling an under-full window with exactly the bytes needed to reach `bs`
performs one hash check at the last byte: a hit emits one copy at
`p + |w| - bs` and clears the window, a miss keeps the full window. -/
theorem fold_reach (bs : Nat) (hashes : List Nat) :
    ∀ (w : List Nat), w ≠ [] → ∀ (win : List Nat) (d : List DeltaCommand) (p : Nat),
      win.length + w.length = bs →
      List.foldl (genStep bs hashes) ⟨d, win, p⟩ w
        = match lookupFirst hashes (polyHash (win ++ w)) with
          | some idx => ⟨d ++ [⟨"copy", p + w.length - bs, idx, []⟩], [], p + w.length⟩
          | none => ⟨d, win ++ w, p + w.length⟩ := by
  intro w
  induction w with
  | nil => intro h; exact absurd rfl h
  | cons b w' ih =>
      intro _ win d p hlen
      simp only [List.length_cons] at hlen
      cases w' with
      | nil =>
          simp only [List.length_nil] at hlen
          have hsw : slideWindow bs win b = win ++ [b] :=
            slideWindow_no_evict b (by omega)
          have h1 : (slideWindow bs win b).length = bs := by
            rw [hsw]
            simp only [List.length_append, List.length_cons, List.length_nil]
            omega
          rw [List.foldl_cons, List.foldl_nil]
          show genStep bs hashes ⟨d, win, p⟩ b = _
          unfold genStep
          rw [if_pos h1, hsw, windowHash_eq_polyHash]
          rfl
      | cons b2 w'' =>
          simp only [List.length_cons] at hlen
          have hsw : slideWindow bs win b = win ++ [b] :=
            slideWindow_no_evict b (by omega)
          have h1 : (slideWindow bs win b).length ≠ bs := by
            rw [hsw]
            simp only [List.length_append, List.length_cons, List.length_nil]
            omega
          rw [List.foldl_cons, @genStep_eq_of_not_full bs hashes ⟨d, win, p⟩ b h1]
          dsimp only
          rw [hsw, ih (by simp) (win ++ [b]) d (p + 1)
            (by simp only [List.length_append, List.length_cons, List.length_nil]; omega)]
          rw [← List.append_cons win b (b2 :: w'')]
          have hp : p + 1 + (b2 :: w'').length = p + (b :: b2 :: w'').length := by
            simp only [List.length_cons]
            omega
          rw [hp]

/-- The commands accumulated before a fold ride along unchanged in front of
whatever the fold appends; window and cursor do not depend on them. -/
theorem foldl_genStep_delta_irrel (bs : Nat) (hashes : List Nat) :
    ∀ (l : List Nat) (d : List DeltaCommand) (win : List Nat) (p : Nat),
      (List.foldl (genStep bs hashes) ⟨d, win, p⟩ l).delta
          = d ++ (List.foldl (genStep bs hashes) ⟨[], win, p⟩ l).delta
      ∧ (List.foldl (genStep bs hashes) ⟨d, win, p⟩ l).window
          = (List.foldl (genStep bs hashes) ⟨[], win, p⟩ l).window
      ∧ (List.foldl (genStep bs hashes) ⟨d, win, p⟩ l).position
          = (List.foldl (genStep bs hashes) ⟨[], win, p⟩ l).position := by
  intro l
  induction l with
  | nil => intro d win p; exact ⟨(List.append_nil d).symm, rfl, rfl⟩
  | cons b l' ih =>
      intro d win p
      rw [List.foldl_cons, List.foldl_cons]
      rcases eq_or_ne (slideWindow bs win b).length bs with h1 | h1
      · cases h2 : lookupFirst hashes (windowHash bs (slideWindow bs win b)) with
        | some idx =>
            rw [@genStep_eq_of_some bs hashes ⟨d, win, p⟩ b idx h1 h2,
                @genStep_eq_of_some bs hashes ⟨[], win, p⟩ b idx h1 h2]
            dsimp only
            simp only [List.nil_append]
            obtain ⟨ha1, ha2, ha3⟩ := ih (d ++ [⟨"copy", p + 1 - bs, idx, []⟩]) [] (p + 1)
            obtain ⟨hb1, hb2, hb3⟩ := ih [⟨"copy", p + 1 - bs, idx, []⟩] [] (p + 1)
            refine ⟨?_, ?_, ?_⟩
            · rw [ha1, hb1, List.append_assoc]
            · rw [ha2, hb2]
            · rw [ha3, hb3]
        | none =>
            rw [@genStep_eq_of_none bs hashes ⟨d, win, p⟩ b h1 h2,
                @genStep_eq_of_none bs hashes ⟨[], win, p⟩ b h1 h2]
            exact ih d (slideWindow bs win b) (p + 1)
      · rw [@genStep_eq_of_not_full bs hashes ⟨d, win, p⟩ b h1,
            @genStep_eq_of_not_full bs hashes ⟨[], win, p⟩ b h1]
        exact ih d (slideWindow bs win b) (p + 1)

theorem genFinish_append (d1 d2 : List DeltaCommand) (w : List Nat) (p : Nat) :
    genFinish ⟨d1 ++ d2, w, p⟩ = d1 ++ genFinish ⟨d2, w, p⟩ := by
  unfold genFinish
  dsimp only
  split
  · rw [List.append_assoc]
  · rfl

theorem chunkList_nil_of (bs : Nat) : chunkList bs [] = [] := rfl

theorem chunkList_getElemQ (bs : Nat) (hbs : 0 < bs) :
    ∀ (m : Nat) (l : List Nat), m < (chunkList bs l).length →
      (chunkList bs l)[m]? = some ((l.drop (m * bs)).take bs) := by
  intro m
  induction m with
  | zero =>
      intro l hm
      have hl : l ≠ [] := by
        intro h
        subst h
        simp [chunkList_nil_of] at hm
      rw [chunkList_cons bs hbs l hl]
      simp
  | succ m ih =>
      intro l hm
      have hl : l ≠ [] := by
        intro h
        subst h
        simp [chunkList_nil_of] at hm
      rw [chunkList_cons bs hbs l hl] at hm ⊢
      simp only [List.length_cons] at hm
      rw [List.getElem?_cons_succ, ih (l.drop bs) (by omega), List.drop_drop]
      congr 3
      rw [Nat.succ_mul]
      omega

theorem chunkList_length_iff (bs : Nat) (hbs : 0 < bs) :
    ∀ (m : Nat) (l : List Nat), m < (chunkList bs l).length ↔ m * bs < l.length := by
  intro m
  induction m with
  | zero =>
      intro l
      constructor
      · intro hm
        have hl : l ≠ [] := by
          intro h
          subst h
          simp [chunkList_nil_of] at hm
        simpa using List.length_pos.2 hl
      · intro hl
        have hl' : l ≠ [] := by
          intro h
          subst h
          simp at hl
        rw [chunkList_cons bs hbs l hl']
        simp
  | succ m ih =>
      intro l
      by_cases hl : l = []
      · subst hl
        simp [chunkList_nil_of]
      · rw [chunkList_cons bs hbs l hl]
        simp only [List.length_cons, Nat.succ_lt_succ_iff]
        rw [ih (l.drop bs)]
        simp only [List.length_drop]
        rw [Nat.succ_mul]
        omega

theorem mem_of_getElemQ : ∀ {l : List Nat} {n : Nat} {a : Nat}, l[n]? = some a → a ∈ l := by
  intro l
  induction l with
  | nil => intro n a h; simp at h
  | cons x t ih =>
      intro n a h
      cases n with
      | zero =>
          simp only [List.getElem?_cons_zero, Option.some.injEq] at h
          subst h
          exact List.mem_cons_self x t
      | succ n =>
          rw [List.getElem?_cons_succ] at h
          exact List.mem_cons_of_mem x (ih h)

theorem blockHashes_getElemQ (bs : Nat) (O : List Nat) (hbs : 0 < bs)
    (m : Nat) (hm : m * bs < O.length) :
    (blockHashes bs O)[m]? = some (polyHash ((O.drop (m * bs)).take bs)) := by
  unfold blockHashes
  rw [List.getElem?_map,
      chunkList_getElemQ bs hbs m O ((chunkList_length_iff bs hbs m O).2 hm)]
  simp [blockHash_eq_polyHash]

theorem blockHashes_length (bs : Nat) (O : List Nat) :
    (blockHashes bs O).length = (chunkList bs O).length :=
  List.length_map _ _


theorem genStateExt (s t : GenState) (h1 : s.delta = t.delta)
    (h2 : s.window = t.window) (h3 : s.position = t.position) : s = t := by
  cases s
  cases t
  dsimp only at h1 h2 h3
  rw [h1, h2, h3]

theorem foldl_genStep_delta_irrel_state (bs : Nat) (hashes : List Nat)
    (l : List Nat) (d : List DeltaCommand) (win : List Nat) (p : Nat) :
    List.foldl (genStep bs hashes) ⟨d, win, p⟩ l
      = ⟨d ++ (List.foldl (genStep bs hashes) ⟨[], win, p⟩ l).delta,
         (List.foldl (genStep bs hashes) ⟨[], win, p⟩ l).window,
         (List.foldl (genStep bs hashes) ⟨[], win, p⟩ l).position⟩ := by
  obtain ⟨h1, h2, h3⟩ := foldl_genStep_delta_irrel bs hashes l d win p
  exact genStateExt _ _ (by rw [h1]) h2 h3

theorem writeAt_eq_append (out : List Nat) (pos : Nat) (d : List Nat)
    (h : out.length = pos) : writeAt out pos d = out ++ d := by
  subst h
  exact writeAt_at_end out d

/-- The core of the identity diff: scanning the tail of `O` from a block
boundary `m*bs` with an empty window, every full block matches some
equal-content block of the index, so replaying the remaining commands on top
of the first `m*bs` output bytes reconstructs `O`; and when `bs` divides
`|O|` the window is empty at end of input. -/
theorem identity_replay (bs : Nat) (O : List Nat) (hbs : 0 < bs)
    (hinj : ∀ i, i < (chunkList bs O).length → ∀ j, j < (chunkList bs O).length →
        blockHash ((O.drop (i * bs)).take bs) = blockHash ((O.drop (j * bs)).take bs) →
        (O.drop (i * bs)).take bs = (O.drop (j * bs)).take bs) :
    ∀ r m, O.length - m * bs ≤ r →
      List.foldlM (applyCommand bs O) (O.take (m * bs))
          (genFinish (List.foldl (genStep bs (blockHashes bs O)) ⟨[], [], m * bs⟩
            (O.drop (m * bs))))
        = .ok O
      ∧ (bs ∣ O.length →
          (List.foldl (genStep bs (blockHashes bs O)) ⟨[], [], m * bs⟩
            (O.drop (m * bs))).window = []) := by
  have hbase : ∀ m, O.length ≤ m * bs →
      List.foldlM (applyCommand bs O) (O.take (m * bs))
          (genFinish (List.foldl (genStep bs (blockHashes bs O)) ⟨[], [], m * bs⟩
            (O.drop (m * bs))))
        = .ok O
      ∧ (bs ∣ O.length →
          (List.foldl (genStep bs (blockHashes bs O)) ⟨[], [], m * bs⟩
            (O.drop (m * bs))).window = []) := by
    intro m hm
    have hdrop : O.drop (m * bs) = [] := List.drop_eq_nil_of_le hm
    rw [hdrop]
    simp only [List.foldl_nil]
    constructor
    · have hfin : genFinish ⟨[], [], m * bs⟩ = [] := rfl
      rw [hfin]
      simp only [List.foldlM_nil]
      rw [List.take_of_length_le hm]
      rfl
    · intro _
      trivial
  intro r
  induction r with
  | zero =>
      intro m hr
      exact hbase m (by omega)
  | succ r ih =>
      intro m hr
      by_cases hend : O.length ≤ m * bs
      · exact hbase m hend
      · push_neg at hend
        have hRlen : (O.drop (m * bs)).length = O.length - m * bs :=
          List.length_drop _ _
        by_cases hlong : bs ≤ (O.drop (m * bs)).length
        · -- a full block is available at position m*bs
          have hmlt : m < (chunkList bs O).length :=
            (chunkList_length_iff bs hbs m O).2 hend
          have hcml : ((O.drop (m * bs)).take bs).length = bs := by
            rw [List.length_take]
            omega
          have hcmne : (O.drop (m * bs)).take bs ≠ [] := by
            intro h
            have := congrArg List.length h
            rw [hcml] at this
            simp at this
            omega
          have hsplit : O.drop (m * bs)
              = (O.drop (m * bs)).take bs ++ O.drop ((m + 1) * bs) := by
            conv_lhs => rw [← List.take_append_drop bs (O.drop (m * bs))]
            congr 1
            rw [List.drop_drop]
            congr 1
            rw [Nat.succ_mul]
          have hHm : (blockHashes bs O)[m]?
              = some (polyHash ((O.drop (m * bs)).take bs)) :=
            blockHashes_getElemQ bs O hbs m hend
          have hmem : polyHash ((O.drop (m * bs)).take bs) ∈ blockHashes bs O :=
            mem_of_getElemQ hHm
          obtain ⟨i, hlook⟩ := lookupFirst_isSome_of_mem hmem
          obtain ⟨hilt, higet, _⟩ := lookupFirst_spec _ _ _ hlook
          have hilt' : i < (chunkList bs O).length := by
            rw [← blockHashes_length bs O]
            exact hilt
          have hibs : i * bs < O.length := (chunkList_length_iff bs hbs i O).1 hilt'
          have hHi : (blockHashes bs O)[i]?
              = some (polyHash ((O.drop (i * bs)).take bs)) :=
            blockHashes_getElemQ bs O hbs i hibs
          have hchunk_eq : (O.drop (i * bs)).take bs = (O.drop (m * bs)).take bs := by
            apply hinj i hilt' m hmlt
            rw [blockHash_eq_polyHash, blockHash_eq_polyHash]
            rw [hHi] at higet
            exact Option.some.inj higet
          have hreach := fold_reach bs (blockHashes bs O) ((O.drop (m * bs)).take bs)
            hcmne [] [] (m * bs) (by rw [hcml]; simp)
          rw [List.nil_append, hlook] at hreach
          dsimp only at hreach
          rw [hcml] at hreach
          rw [show m * bs + bs - bs = m * bs by omega,
              show m * bs + bs = (m + 1) * bs from (Nat.succ_mul m bs).symm] at hreach
          simp only [List.nil_append] at hreach
          have hfold : List.foldl (genStep bs (blockHashes bs O)) ⟨[], [], m * bs⟩
              (O.drop (m * bs))
              = ⟨⟨"copy", m * bs, i, []⟩
                    :: (List.foldl (genStep bs (blockHashes bs O)) ⟨[], [], (m + 1) * bs⟩
                        (O.drop ((m + 1) * bs))).delta,
                 (List.foldl (genStep bs (blockHashes bs O)) ⟨[], [], (m + 1) * bs⟩
                     (O.drop ((m + 1) * bs))).window,
                 (List.foldl (genStep bs (blockHashes bs O)) ⟨[], [], (m + 1) * bs⟩
                     (O.drop ((m + 1) * bs))).position⟩ := by
            conv_lhs => rw [hsplit]
            rw [List.foldl_append, hreach,
                foldl_genStep_delta_irrel_state bs (blockHashes bs O)
                  (O.drop ((m + 1) * bs)) [⟨"copy", m * bs, i, []⟩] [] ((m + 1) * bs)]
            rfl
          have hmul : (m + 1) * bs = m * bs + bs := Nat.succ_mul m bs
          have hnext := ih (m + 1) (by omega)
          constructor
          · rw [hfold, ← List.singleton_append, genFinish_append, List.foldlM_append]
            have happly : applyCommand bs O (O.take (m * bs)) ⟨"copy", m * bs, i, []⟩
                = .ok (O.take ((m + 1) * bs)) := by
              rw [show applyCommand bs O (O.take (m * bs)) ⟨"copy", m * bs, i, []⟩
                  = .ok (writeAt (O.take (m * bs)) (m * bs) ((O.drop (i * bs)).take bs))
                  from rfl]
              rw [hchunk_eq]
              have hout : (O.take (m * bs)).length = m * bs := by
                rw [List.length_take]
                omega
              rw [writeAt_eq_append _ _ _ hout, ← List.take_add,
                  show m * bs + bs = (m + 1) * bs from (Nat.succ_mul m bs).symm]
            rw [show List.foldlM (applyCommand bs O) (O.take (m * bs))
                  [(⟨"copy", m * bs, i, []⟩ : DeltaCommand)]
                = applyCommand bs O (O.take (m * bs)) ⟨"copy", m * bs, i, []⟩ >>= fun o =>
                    pure o from rfl]
            rw [happly]
            show List.foldlM (applyCommand bs O) (O.take ((m + 1) * bs))
                (genFinish ⟨(List.foldl (genStep bs (blockHashes bs O))
                      ⟨[], [], (m + 1) * bs⟩ (O.drop ((m + 1) * bs))).delta,
                    (List.foldl (genStep bs (blockHashes bs O))
                      ⟨[], [], (m + 1) * bs⟩ (O.drop ((m + 1) * bs))).window,
                    (List.foldl (genStep bs (blockHashes bs O))
                      ⟨[], [], (m + 1) * bs⟩ (O.drop ((m + 1) * bs))).position⟩)
              = .ok O
            exact hnext.1
          · intro hdvd
            rw [hfold]
            exact hnext.2 hdvd
        · -- fewer than bs bytes remain: they are flushed as one insert
          push_neg at hlong
          have hRne : O.drop (m * bs) ≠ [] := by
            intro h
            have := congrArg List.length h
            rw [hRlen] at this
            simp at this
            omega
          have hfold := fold_below bs (blockHashes bs O) (O.drop (m * bs)) [] []
            (m * bs) (by simpa using hlong)
          constructor
          · rw [hfold, genFinish_eq_of_nonempty _ (by simpa using hRne)]
            dsimp only
            simp only [List.nil_append]
            rw [show m * bs + (O.drop (m * bs)).length - (O.drop (m * bs)).length
                  = m * bs by omega]
            have happly : applyCommand bs O (O.take (m * bs))
                ⟨"insert", m * bs, 0, O.drop (m * bs)⟩ = .ok O := by
              rw [show applyCommand bs O (O.take (m * bs))
                    ⟨"insert", m * bs, 0, O.drop (m * bs)⟩
                  = .ok (writeAt (O.take (m * bs)) (m * bs) (O.drop (m * bs)))
                  from rfl]
              have hout : (O.take (m * bs)).length = m * bs := by
                rw [List.length_take]
                omega
              rw [writeAt_eq_append _ _ _ hout, List.take_append_drop]
            rw [show List.foldlM (applyCommand bs O) (O.take (m * bs))
                  [(⟨"insert", m * bs, 0, O.drop (m * bs)⟩ : DeltaCommand)]
                = applyCommand bs O (O.take (m * bs))
                    ⟨"insert", m * bs, 0, O.drop (m * bs)⟩ >>= fun o => pure o from rfl]
            rw [happly]
            rfl
          · intro hdvd
            exfalso
            have h1 : bs ∣ m * bs := Dvd.intro_left m rfl
            have h2 : bs ∣ O.length - m * bs := Nat.dvd_sub' hdvd h1
            rw [← hRlen] at h2
            have h3 : 0 < (O.drop (m * bs)).length := by omega
            have := Nat.le_of_dvd h3 h2
            omega

/-- C8: serial delta generation on `(O, O)` produces a command list whose
replay reconstructs `O` exactly, and when `bs` divides `|O|` the list
consists of copy commands only (no Insert), assuming no hash collision
between distinct block contents of `O`. -/
theorem C8_identity_diff (bs : Nat) (O : List Nat) (hbs : 0 < bs)
    (hinj : ∀ i, i < (chunkList bs O).length → ∀ j, j < (chunkList bs O).length →
        blockHash ((O.drop (i * bs)).take bs) = blockHash ((O.drop (j * bs)).take bs) →
        (O.drop (i * bs)).take bs = (O.drop (j * bs)).take bs) :
    ApplyDelta bs O (GenerateDelta bs O O) = .ok O
    ∧ (bs ∣ O.length → ∀ c ∈ GenerateDelta bs O O, c.Command = "copy") := by
  have hmain := identity_replay bs O hbs hinj O.length 0 (by omega)
  have hzero : (0 : Nat) * bs = 0 := Nat.zero_mul bs
  constructor
  · have h1 := hmain.1
    rw [hzero, List.take_zero, List.drop_zero] at h1
    exact h1
  · intro hdvd c hc
    have h2 := hmain.2 hdvd
    rw [hzero, List.drop_zero] at h2
    have hwin : (genRun bs O O).window = [] := h2
    have hfin : GenerateDelta bs O O = (genRun bs O O).delta := by
      unfold GenerateDelta genFinish
      rw [if_neg (by rw [hwin]; simp)]
    rw [hfin] at hc
    rcases foldl_genStep_delta_mem bs (blockHashes bs O) O ⟨[], [], 0⟩ c hc with h0 | hres
    · cases h0
    · exact hres.1

/-- Concrete instantiation of `C8_identity_diff`: block size 2,
`O = [1,2,3,4]` (length a multiple of the block size, both block hashes
distinct). -/
theorem C8_identity_diff_witness :
    ApplyDelta 2 [1, 2, 3, 4] (GenerateDelta 2 [1, 2, 3, 4] [1, 2, 3, 4])
      = .ok [1, 2, 3, 4]
    ∧ (2 ∣ ([1, 2, 3, 4] : List Nat).length →
        ∀ c ∈ GenerateDelta 2 [1, 2, 3, 4] [1, 2, 3, 4], c.Command = "copy") :=
  C8_identity_diff 2 [1, 2, 3, 4] (by decide) (by decide)


theorem secStep_empty_hashes (bs start endp : Nat) (s : GenState) (b : Nat) :
    secStep bs [] start endp s b
      = if s.position = endp - 1 then
          ⟨s.delta ++ [⟨"insert", s.position + 1 - (slideWindow bs s.window b).length, 0,
              slideWindow bs s.window b⟩], [], s.position + 1⟩
        else ⟨s.delta, slideWindow bs s.window b, s.position + 1⟩ := by
  unfold secStep
  by_cases h3 : s.position = endp - 1
  · rw [if_pos (Or.inr h3)]
    simp only [lookupFirst_nil]
  · by_cases h1 : (slideWindow bs s.window b).length = bs
    · rw [if_pos (Or.inl h1)]
      simp only [lookupFirst_nil]
    · rw [if_neg (by tauto), if_neg h3]

/-- `processSection` over a constant byte run with an empty index: nothing
matches, the window slides, and the final position of the section flushes the
window as a single insert. -/
theorem foldl_secStep_empty_replicate (bs c start endp : Nat) :
    ∀ (k m p : Nat) (d : List DeltaCommand), m ≤ bs → 0 < k → p + k = endp →
      List.foldl (secStep bs [] start endp) ⟨d, List.replicate m c, p⟩
          (List.replicate k c)
        = ⟨d ++ [⟨"insert", endp - min (m + k) bs, 0,
              List.replicate (min (m + k) bs) c⟩], [], endp⟩ := by
  intro k
  induction k with
  | zero => intro m p d _ h0 _; exact absurd h0 (lt_irrefl 0)
  | succ k ih =>
      intro m p d hm hk hpk
      rw [List.replicate_succ, List.foldl_cons, secStep_empty_hashes]
      by_cases hkz : k = 0
      · subst hkz
        have hp : p = endp - 1 := by omega
        rw [if_pos hp]
        dsimp only
        simp only [List.replicate_zero, List.foldl_nil]
        rw [slideWindow_replicate bs m c hm]
        simp only [List.length_replicate]
        have h1 : p + 1 - min (m + 1) bs = endp - min (m + 0 + 1) bs := by omega
        have h2 : min (m + 1) bs = min (m + 0 + 1) bs := by omega
        have h3 : p + 1 = endp := by omega
        rw [h1, h2, h3]
      · have hne : p ≠ endp - 1 := by omega
        rw [if_neg hne]
        dsimp only
        rw [slideWindow_replicate bs m c hm,
            ih (min (m + 1) bs) (p + 1) d (Nat.min_le_right _ _) (by omega) (by omega)]
        have h2 : min (min (m + 1) bs + k) bs = min (m + (k + 1)) bs := by omega
        rw [h2]

theorem processSection_empty_replicate (bs c start endp n : Nat) (hbs : 0 < bs)
    (hse : start < endp) (hend : endp ≤ n) :
    processSection bs [] (List.replicate n c) start endp
      = [⟨"insert", endp - min (endp - start) bs, 0,
          List.replicate (min (endp - start) bs) c⟩] := by
  unfold processSection
  have hbytes : ((List.replicate n c).drop start).take (endp - start)
      = List.replicate (endp - start) c := by
    rw [List.drop_replicate, List.take_replicate]
    congr 1
    omega
  rw [hbytes,
      show (⟨[], [], start⟩ : GenState) = ⟨[], List.replicate 0 c, start⟩ from rfl,
      foldl_secStep_empty_replicate bs c start endp (endp - start) 0 start []
        (by omega) (by omega) (by omega)]
  unfold genFinish
  rw [if_neg (by simp)]
  simp only [List.nil_append, Nat.zero_add]

theorem sortByPos_pair (a b : DeltaCommand) (h : a.Position ≤ b.Position) :
    sortByPos [a, b] = [a, b] := by
  unfold sortByPos
  simp only [List.foldr_cons, List.foldr_nil]
  show insertCmd a (insertCmd b []) = [a, b]
  simp [insertCmd, h]

/-- Serial generation over a constant file longer than one block, with an
empty original: one trailing insert holding only the last `bs` bytes. -/
theorem serial_empty_replicate (bs n : Nat) (hbs : 0 < bs) (hn : bs < n) :
    GenerateDelta bs [] (List.replicate n 1)
      = [⟨"insert", n - bs, 0, List.replicate bs 1⟩] := by
  unfold GenerateDelta genRun
  rw [blockHashes_nil,
      show (⟨[], [], 0⟩ : GenState) = ⟨[], List.replicate 0 1, 0⟩ from rfl,
      foldl_genStep_empty_replicate bs 1 n 0 0 [] (by omega),
      show min (0 + n) bs = bs by omega]
  rw [genFinish_eq_of_nonempty _ (by
    intro h
    have := congrArg List.length h
    rw [List.length_replicate] at this
    simp at this
    omega)]
  dsimp only
  simp only [List.nil_append, List.length_replicate]
  congr 2
  omega

/-- Sectioned-parallel generation over a constant file one byte longer than a
section, with an empty original: two inserts, one per section — the first
covering only the last `bs` bytes of section 0, the second the single byte of
section 1. -/
theorem parallel_empty_replicate (bs ss : Nat) (hbs : 0 < bs) (hbss : bs < ss)
    (hdiv : (ss + 1) / ss = 1) :
    GenerateDeltaPar bs ss [] (List.replicate (ss + 1) 1)
      = [⟨"insert", ss - bs, 0, List.replicate bs 1⟩,
         ⟨"insert", ss, 0, List.replicate 1 1⟩] := by
  unfold GenerateDeltaPar
  rw [blockHashes_nil]
  simp only [List.length_replicate]
  rw [hdiv, show List.range (1 + 1) = [0, 1] from rfl]
  simp only [List.map_cons, List.map_nil, Nat.zero_mul, Nat.one_mul, Nat.zero_add]
  rw [show min ss (ss + 1) = ss by omega,
      show min (ss + ss) (ss + 1) = ss + 1 by omega]
  rw [processSection_empty_replicate bs 1 0 ss (ss + 1) hbs (by omega) (by omega),
      processSection_empty_replicate bs 1 ss (ss + 1) (ss + 1) hbs (by omega) (by omega)]
  rw [show ss - 0 = ss from Nat.sub_zero ss,
      show min ss bs = bs by omega,
      show ss + 1 - ss = 1 by omega,
      show min 1 bs = 1 by omega,
      show ss + 1 - 1 = ss by omega]
  simp only [List.flatten_cons, List.flatten_nil, List.append_nil,
    List.singleton_append]
  exact sortByPos_pair _ _ (by dsimp only; omega)


theorem replicate_getElemQ (k x n : Nat) (h : n < k) :
    (List.replicate k x)[n]? = some x := by
  induction k generalizing n with
  | zero => omega
  | succ k ih =>
      rw [List.replicate_succ]
      cases n with
      | zero => simp
      | succ n =>
          rw [List.getElem?_cons_succ]
          exact ih n (by omega)

theorem ok_bind {α β : Type} (a : α) (k : α → Except String β) :
    (Except.ok a >>= k) = k a := rfl

/-- C2 (refuted at the program's own block and section sizes): with an empty
original and an updated file of `sectionSize + 1` bytes of value 1 — no hash
collisions anywhere, since the index is empty — the sectioned-parallel
generator flushes a window at each section boundary while the serial one
flushes only at EOF, and the two merged-and-replayed outputs differ at output
position `sectionSize - blockSize` (byte 1 versus a zero hole). -/
theorem C2_parallel_serial_replay_differ :
    ApplyDelta blockSize []
        (GenerateDeltaPar blockSize sectionSize [] (List.replicate (sectionSize + 1) 1))
      = .ok ((List.replicate (sectionSize - blockSize) 0 ++ List.replicate blockSize 1)
            ++ List.replicate 1 1)
    ∧ ApplyDelta blockSize []
        (GenerateDelta blockSize [] (List.replicate (sectionSize + 1) 1))
      = .ok (List.replicate (sectionSize + 1 - blockSize) 0 ++ List.replicate blockSize 1)
    ∧ ApplyDelta blockSize []
        (GenerateDeltaPar blockSize sectionSize [] (List.replicate (sectionSize + 1) 1))
      ≠ ApplyDelta blockSize []
        (GenerateDelta blockSize [] (List.replicate (sectionSize + 1) 1)) := by
  have hgenP := parallel_empty_replicate blockSize sectionSize (by decide) (by decide)
    (by decide)
  have hgenS := serial_empty_replicate blockSize (sectionSize + 1) (by decide) (by decide)
  have happlyP : ApplyDelta blockSize []
      [⟨"insert", sectionSize - blockSize, 0, List.replicate blockSize 1⟩,
       ⟨"insert", sectionSize, 0, List.replicate 1 1⟩]
      = .ok ((List.replicate (sectionSize - blockSize) 0 ++ List.replicate blockSize 1)
            ++ List.replicate 1 1) := by
    unfold ApplyDelta
    rw [List.foldlM_cons,
        show applyCommand blockSize [] []
            ⟨"insert", sectionSize - blockSize, 0, List.replicate blockSize 1⟩
          = .ok (writeAt [] (sectionSize - blockSize) (List.replicate blockSize 1))
          from rfl,
        writeAt_nil, ok_bind]
    rw [List.foldlM_cons,
        show applyCommand blockSize []
            (List.replicate (sectionSize - blockSize) 0 ++ List.replicate blockSize 1)
            ⟨"insert", sectionSize, 0, List.replicate 1 1⟩
          = .ok (writeAt
              (List.replicate (sectionSize - blockSize) 0 ++ List.replicate blockSize 1)
              sectionSize (List.replicate 1 1))
          from rfl,
        writeAt_eq_append _ _ _ (by
          simp only [List.length_append, List.length_replicate]
          decide),
        ok_bind]
    rfl
  have happlyS : ApplyDelta blockSize []
      [⟨"insert", sectionSize + 1 - blockSize, 0, List.replicate blockSize 1⟩]
      = .ok (List.replicate (sectionSize + 1 - blockSize) 0
            ++ List.replicate blockSize 1) := by
    unfold ApplyDelta
    rw [List.foldlM_cons,
        show applyCommand blockSize [] []
            ⟨"insert", sectionSize + 1 - blockSize, 0, List.replicate blockSize 1⟩
          = .ok (writeAt [] (sectionSize + 1 - blockSize) (List.replicate blockSize 1))
          from rfl,
        writeAt_nil, ok_bind]
    rfl
  have h1 : ApplyDelta blockSize []
      (GenerateDeltaPar blockSize sectionSize [] (List.replicate (sectionSize + 1) 1))
      = .ok ((List.replicate (sectionSize - blockSize) 0 ++ List.replicate blockSize 1)
            ++ List.replicate 1 1) := by
    rw [hgenP, happlyP]
  have h2 : ApplyDelta blockSize []
      (GenerateDelta blockSize [] (List.replicate (sectionSize + 1) 1))
      = .ok (List.replicate (sectionSize + 1 - blockSize) 0
            ++ List.replicate blockSize 1) := by
    rw [hgenS, happlyS]
  refine ⟨h1, h2, ?_⟩
  intro heq
  rw [h1, h2] at heq
  have hlist := Except.ok.inj heq
  have hidx := congrArg (fun l => l[sectionSize - blockSize]?) hlist
  dsimp only at hidx
  have hL1 : ((List.replicate (sectionSize - blockSize) (0 : Nat)
        ++ List.replicate blockSize 1) ++ List.replicate 1 1)[sectionSize - blockSize]?
      = some 1 := by
    rw [List.getElem?_append, if_pos (by
        simp only [List.length_append, List.length_replicate]
        decide)]
    rw [List.getElem?_append, if_neg (by
        simp only [List.length_replicate]
        omega)]
    simp only [List.length_replicate, Nat.sub_self]
    exact replicate_getElemQ blockSize 1 0 (by decide)
  have hL2 : (List.replicate (sectionSize + 1 - blockSize) (0 : Nat)
        ++ List.replicate blockSize 1)[sectionSize - blockSize]?
      = some 0 := by
    rw [List.getElem?_append, if_pos (by
        simp only [List.length_replicate]
        decide)]
    exact replicate_getElemQ (sectionSize + 1 - blockSize) 0 (sectionSize - blockSize)
      (by decide)
  rw [hL1, hL2] at hidx
  exact absurd (Option.some.inj hidx) (by decide)


end EigerDiff
